import Mathlib

/-! # godog-restful: the HTTP step definitions of `godoghttp/godog_http.go`

A shallow embedding of the step functions of `apiFeature` and of the library
calls they depend on, followed by the properties proved about them.

Conventions of the embedding.

* Go `string` and `[]byte` values are Lean `String`s, so only valid UTF-8 text
  is covered; inside the JSON model they are lists of characters.
* A Go `error` built by `fmt.Errorf` is its message; `nil` is `none`.
* A run-time panic (index out of range, write to a nil map) is the `panic`
  constructor of `Outcome`.
* Library behaviour that is not part of the repository and cannot be written
  down concretely (binary floating point, the Unicode case-folding table, URL
  validation, the network, `gjson`) enters as an explicit argument.
-/

namespace GodogHTTP

/-! ## JSON documents (`encoding/json`) -/

mutual
/-- A JSON value. With `α = List Char` a number carries its literal text (the
parsed document); with `α` the float type it is the Go `interface{}` value that
`json.Unmarshal` produces. -/
inductive JVal (α : Type) : Type
  | null : JVal α
  | bool (b : Bool) : JVal α
  | num (n : α) : JVal α
  | str (s : List Char) : JVal α
  | arr (xs : JList α) : JVal α
  | obj (ms : JMembers α) : JVal α
/-- The elements of an array, in order. -/
inductive JList (α : Type) : Type
  | nil : JList α
  | cons (v : JVal α) (tl : JList α) : JList α
/-- The members of an object, in order. -/
inductive JMembers (α : Type) : Type
  | nil : JMembers α
  | cons (k : List Char) (v : JVal α) (tl : JMembers α) : JMembers α
end

/-- The four white-space characters of the JSON scanner. -/
def isJSONSpace (c : Char) : Bool := c == ' ' || c == '\t' || c == '\r' || c == '\n'

/-- Skip insignificant white space. -/
def skipWS : List Char → List Char
  | [] => []
  | c :: cs => if isJSONSpace c then skipWS cs else c :: cs

/-- An ASCII decimal digit. -/
def isDigit (c : Char) : Bool := decide ('0' ≤ c) && decide (c ≤ '9')

/-- Value of a hexadecimal digit, either case. -/
def hexVal (c : Char) : Option Nat :=
  if '0' ≤ c ∧ c ≤ '9' then some (c.toNat - '0'.toNat)
  else if 'a' ≤ c ∧ c ≤ 'f' then some (c.toNat - 'a'.toNat + 10)
  else if 'A' ≤ c ∧ c ≤ 'F' then some (c.toNat - 'A'.toNat + 10)
  else none

/-- Go `getu4`: the code unit of a leading `\uXXXX`, and the text after it. -/
def getu4 : List Char → Option (Nat × List Char)
  | '\\' :: 'u' :: a :: b :: c :: d :: rest =>
    match hexVal a, hexVal b, hexVal c, hexVal d with
    | some x, some y, some z, some w => some (((x * 16 + y) * 16 + z) * 16 + w, rest)
    | _, _, _, _ => none
  | _ => none

/-- The one-character escapes of a JSON string literal. -/
def simpleEscape (e : Char) : Option Char :=
  if e = '"' then some '"' else if e = '\\' then some '\\' else if e = '/' then some '/'
  else if e = 'b' then some (Char.ofNat 8) else if e = 'f' then some (Char.ofNat 12)
  else if e = 'n' then some '\n' else if e = 'r' then some '\r'
  else if e = 't' then some '\t' else none

/-- Scan and unquote a string literal whose opening quote has been consumed
(scanner states `stateInString...` and `unquote` of `encoding/json`): returns
the decoded text and the input after the closing quote. A `\u` escape of a
surrogate is combined with a following low surrogate, and is U+FFFD when it
has no partner. Each step consumes input, so fuel `input length + 1`
always suffices. -/
def parseStr : Nat → List Char → Option (List Char × List Char)
  | 0, _ => none
  | _ + 1, [] => none
  | fuel + 1, c :: rest =>
    if c = '"' then some ([], rest)
    else if c = '\\' then
      match rest with
      | [] => none
      | e :: rest1 =>
        if e = 'u' then
          match getu4 (c :: rest) with
          | none => none
          | some (rr, rest2) =>
            if 0xD800 ≤ rr ∧ rr < 0xE000 then
              match getu4 rest2 with
              | some (rr1, rest3) =>
                if rr < 0xDC00 ∧ 0xDC00 ≤ rr1 ∧ rr1 < 0xE000 then
                  (parseStr fuel rest3).map fun p =>
                    (Char.ofNat ((rr - 0xD800) * 1024 + (rr1 - 0xDC00) + 0x10000) :: p.1, p.2)
                else (parseStr fuel rest2).map fun p => (Char.ofNat 0xFFFD :: p.1, p.2)
              | none => (parseStr fuel rest2).map fun p => (Char.ofNat 0xFFFD :: p.1, p.2)
            else (parseStr fuel rest2).map fun p => (Char.ofNat rr :: p.1, p.2)
        else
          match simpleEscape e with
          | none => none
          | some ch => (parseStr fuel rest1).map fun p => (ch :: p.1, p.2)
    else if c.toNat < 0x20 then none
    else (parseStr fuel rest).map fun p => (c :: p.1, p.2)

/-- Go `isValidNumber`, part 1: an optional minus sign. -/
def numSign : List Char → List Char
  | '-' :: t => t
  | t => t

/-- Go `isValidNumber`, part 2: the integer digits, `0` or a run starting with
a non-zero digit; `none` when there is none. -/
def numInt : List Char → Option (List Char)
  | [] => none
  | d :: t =>
    if d = '0' then some t
    else if isDigit d then some (t.dropWhile isDigit)
    else none

/-- Go `isValidNumber`, part 3: a dot followed by one or more digits, if
present. -/
def numFrac : List Char → List Char
  | '.' :: f :: t => if isDigit f then t.dropWhile isDigit else '.' :: f :: t
  | s => s

/-- Go `isValidNumber`, part 4: an optional exponent (`e` or `E`, an optional
sign, one or more digits), then the end of the text. -/
def numExp : List Char → Bool
  | [] => true
  | e :: u =>
    if (e = 'e' ∨ e = 'E') ∧ u ≠ [] then
      let s4 := match u with
        | g :: t => if g = '+' ∨ g = '-' then t else u
        | [] => u
      s4 ≠ [] ∧ s4.dropWhile isDigit = []
    else false

/-- Go `isValidNumber`: the JSON number grammar
`-? (0 | [1-9][0-9]*) (. [0-9]+)? ([eE] [+-]? [0-9]+)?`. -/
def isValidNumber (s : List Char) : Bool :=
  match numInt (numSign s) with
  | none => false
  | some s2 => numExp (numFrac s2)

/-- The characters a number literal can be made of. -/
def isNumChar (c : Char) : Bool :=
  isDigit c || c == '-' || c == '+' || c == '.' || c == 'e' || c == 'E'

mutual
/-- Parse one JSON value at the head of the input (white space already
skipped); returns the value and the remaining input. The fuel bounds the
number of nested calls. -/
def parseValue : Nat → List Char → Option (JVal (List Char) × List Char)
  | 0, _ => none
  | fuel + 1, cs =>
    match cs with
    | [] => none
    | c :: rest =>
      if c = '\x7b' then
        match skipWS rest with
        | [] => none
        | d :: rest1 =>
          if d = '\x7d' then some (JVal.obj JMembers.nil, rest1)
          else (parseMembers fuel (d :: rest1)).map fun p => (JVal.obj p.1, p.2)
      else if c = '[' then
        match skipWS rest with
        | [] => none
        | d :: rest1 =>
          if d = ']' then some (JVal.arr JList.nil, rest1)
          else (parseElems fuel (d :: rest1)).map fun p => (JVal.arr p.1, p.2)
      else if c = '"' then
        (parseStr (rest.length + 1) rest).map fun p => (JVal.str p.1, p.2)
      else if c = '-' ∨ isDigit c then
        let tok := cs.takeWhile isNumChar
        if isValidNumber tok then some (JVal.num tok, cs.dropWhile isNumChar) else none
      else
        match cs with
        | 't' :: 'r' :: 'u' :: 'e' :: r => some (JVal.bool true, r)
        | 'f' :: 'a' :: 'l' :: 's' :: 'e' :: r => some (JVal.bool false, r)
        | 'n' :: 'u' :: 'l' :: 'l' :: r => some (JVal.null, r)
        | _ => none
/-- Parse the elements of a non-empty array up to and including `]`. -/
def parseElems : Nat → List Char → Option (JList (List Char) × List Char)
  | 0, _ => none
  | fuel + 1, cs =>
    match parseValue fuel cs with
    | none => none
    | some (v, rest) =>
      match skipWS rest with
      | [] => none
      | d :: rest1 =>
        if d = ',' then (parseElems fuel (skipWS rest1)).map fun p => (JList.cons v p.1, p.2)
        else if d = ']' then some (JList.cons v JList.nil, rest1)
        else none
/-- Parse the members of a non-empty object up to and including the closing
brace. -/
def parseMembers : Nat → List Char → Option (JMembers (List Char) × List Char)
  | 0, _ => none
  | fuel + 1, cs =>
    match cs with
    | [] => none
    | q :: rest =>
      if q = '"' then
        match parseStr (rest.length + 1) rest with
        | none => none
        | some (k, rest1) =>
          match skipWS rest1 with
          | [] => none
          | col :: rest2 =>
            if col = ':' then
              match parseValue fuel (skipWS rest2) with
              | none => none
              | some (v, rest3) =>
                match skipWS rest3 with
                | [] => none
                | d :: rest4 =>
                  if d = ',' then
                    (parseMembers fuel (skipWS rest4)).map fun p => (JMembers.cons k v p.1, p.2)
                  else if d = '\x7d' then some (JMembers.cons k v JMembers.nil, rest4)
                  else none
            else none
      else none
end

/-- A whole document: one value surrounded by optional white space. `none`
is a syntax error (`json.Valid` is false). Nested calls alternate between a
value and its element list, so twice the length is fuel enough; that no
failure is due to the fuel is `parseJSON_fuel` below. -/
def parseJSON (s : List Char) : Option (JVal (List Char)) :=
  match parseValue (2 * s.length + 2) (skipWS s) with
  | none => none
  | some (v, rest) => if skipWS rest = [] then some v else none

/-- The part of `strconv` and of the float encoder that `encoding/json` uses
for numbers: the float type, `ParseFloat(lit, 64)` on a number literal (`none`
is a range error) and the text `json.Marshal` writes for a float. -/
structure FloatCodec where
  /-- The finite `float64` values. -/
  F : Type
  /-- Conversion of a number literal. -/
  parseFloat : List Char → Option F
  /-- The encoder's text for a float. -/
  formatFloat : F → List Char

/-- What is used of the codec: the encoder writes a JSON number literal, and
reading that literal back gives the same float (shortest round-trip
formatting). -/
structure FloatCodec.Lawful (K : FloatCodec) : Prop where
  valid : ∀ f : K.F, isValidNumber (K.formatFloat f) = true
  roundTrip : ∀ f : K.F, K.parseFloat (K.formatFloat f) = some f

/-- Go string comparison `a < b`: byte-wise on the UTF-8 encoding, which
orders strings as the lexicographic order on code points does. -/
def keyLt : List Char → List Char → Bool
  | [], [] => false
  | [], _ :: _ => true
  | _ :: _, [] => false
  | a :: as, b :: bs =>
    if a.toNat < b.toNat then true
    else if b.toNat < a.toNat then false
    else keyLt as bs

/-- The map assignment `m[k] = v` on a Go map, kept as the list of its entries
in increasing key order (the order in which `json.Marshal` writes them). -/
def JMembers.insert {α : Type} (k : List Char) (v : JVal α) : JMembers α → JMembers α
  | JMembers.nil => JMembers.cons k v JMembers.nil
  | JMembers.cons k1 v1 tl =>
    if keyLt k k1 then JMembers.cons k v (JMembers.cons k1 v1 tl)
    else if keyLt k1 k then JMembers.cons k1 v1 (JMembers.insert k v tl)
    else JMembers.cons k v tl

/-- The map read `m[k]`. -/
def JMembers.lookup {α : Type} (k : List Char) : JMembers α → Option (JVal α)
  | JMembers.nil => none
  | JMembers.cons k1 v1 tl => if k1 = k then some v1 else JMembers.lookup k tl

mutual
/-- The `interface{}` value `json.Unmarshal` stores for a parsed document:
numbers become floats (`nil` when out of range), arrays slices, and objects
maps filled member by member, so a repeated key keeps its last value. -/
def toInterface (K : FloatCodec) : JVal (List Char) → JVal K.F
  | JVal.null => JVal.null
  | JVal.bool b => JVal.bool b
  | JVal.num lit =>
    match K.parseFloat lit with
    | some f => JVal.num f
    | none => JVal.null
  | JVal.str s => JVal.str s
  | JVal.arr xs => JVal.arr (toInterfaceList K xs)
  | JVal.obj ms => JVal.obj (toInterfaceMembers K JMembers.nil ms)
/-- Element-wise conversion of an array. -/
def toInterfaceList (K : FloatCodec) : JList (List Char) → JList K.F
  | JList.nil => JList.nil
  | JList.cons v tl => JList.cons (toInterface K v) (toInterfaceList K tl)
/-- Conversion of an object: the map so far, then the members left to store. -/
def toInterfaceMembers (K : FloatCodec) : JMembers K.F → JMembers (List Char) → JMembers K.F
  | acc, JMembers.nil => acc
  | acc, JMembers.cons k v tl => toInterfaceMembers K (JMembers.insert k (toInterface K v) acc) tl
end

mutual
/-- Whether every number literal of the document converts (`json.Unmarshal`
reports an `UnmarshalTypeError` otherwise, after storing the rest). -/
def numbersConvert (K : FloatCodec) : JVal (List Char) → Bool
  | JVal.num lit => (K.parseFloat lit).isSome
  | JVal.arr xs => numbersConvertList K xs
  | JVal.obj ms => numbersConvertMembers K ms
  | _ => true
/-- The same for the elements of an array. -/
def numbersConvertList (K : FloatCodec) : JList (List Char) → Bool
  | JList.nil => true
  | JList.cons v tl => numbersConvert K v && numbersConvertList K tl
/-- The same for the members of an object. -/
def numbersConvertMembers (K : FloatCodec) : JMembers (List Char) → Bool
  | JMembers.nil => true
  | JMembers.cons _ v tl => numbersConvert K v && numbersConvertMembers K tl
end

/-- Lower-case hexadecimal digit, as in the encoder's `hex` table. -/
def hexDigit (n : Nat) : Char :=
  if n < 10 then Char.ofNat (48 + n) else Char.ofNat (87 + n)

/-- The encoder's text for one character of a string (`encodeState.string`
with HTML escaping on, as `json.Marshal` has it): quote and backslash are
escaped, `\n`, `\r` and `\t` have short forms, other control characters and
`<`, `>`, `&` are written `\u00XX`, and U+2028 and U+2029 are escaped. (Later
Go releases write backspace and form feed as `\b` and `\f`; the decoder
reads both forms as the same character.) -/
def escapeChar (c : Char) : List Char :=
  if c = '"' then ['\\', '"']
  else if c = '\\' then ['\\', '\\']
  else if c = '\n' then ['\\', 'n']
  else if c = '\r' then ['\\', 'r']
  else if c = '\t' then ['\\', 't']
  else if c.toNat < 0x20 ∨ c = '<' ∨ c = '>' ∨ c = '&' then
    ['\\', 'u', '0', '0', hexDigit (c.toNat / 16), hexDigit (c.toNat % 16)]
  else if c.toNat = 0x2028 then ['\\', 'u', '2', '0', '2', '8']
  else if c.toNat = 0x2029 then ['\\', 'u', '2', '0', '2', '9']
  else [c]

/-- The encoder's text for the inside of a string literal. -/
def escapeString : List Char → List Char
  | [] => []
  | c :: cs => escapeChar c ++ escapeString cs

/-- A quoted string literal. -/
def quoteString (s : List Char) : List Char := '"' :: (escapeString s ++ ['"'])

mutual
/-- The text `json.Marshal` writes for a value; `fmt` writes a number. -/
def encode {α : Type} (fmt : α → List Char) : JVal α → List Char
  | JVal.null => ['n', 'u', 'l', 'l']
  | JVal.bool true => ['t', 'r', 'u', 'e']
  | JVal.bool false => ['f', 'a', 'l', 's', 'e']
  | JVal.num n => fmt n
  | JVal.str s => quoteString s
  | JVal.arr JList.nil => ['[', ']']
  | JVal.arr (JList.cons v tl) => '[' :: (encode fmt v ++ encodeTail fmt tl)
  | JVal.obj JMembers.nil => ['\x7b', '\x7d']
  | JVal.obj (JMembers.cons k v tl) =>
    '\x7b' :: (quoteString k ++ ':' :: (encode fmt v ++ encodeMembersTail fmt tl))
/-- The elements after the first, each preceded by a comma, and the `]`. -/
def encodeTail {α : Type} (fmt : α → List Char) : JList α → List Char
  | JList.nil => [']']
  | JList.cons v tl => ',' :: (encode fmt v ++ encodeTail fmt tl)
/-- The members after the first, each preceded by a comma, and the closing
brace. -/
def encodeMembersTail {α : Type} (fmt : α → List Char) : JMembers α → List Char
  | JMembers.nil => ['\x7d']
  | JMembers.cons k v tl =>
    ',' :: (quoteString k ++ ':' :: (encode fmt v ++ encodeMembersTail fmt tl))
end

/-- Go `json.Unmarshal(text, &data)` for a nil `data interface{}`: the value
left in `data` and the error. A syntax error leaves `data` nil; a number out
of range is stored as nil and reported. The error texts of `encoding/json`
are not reproduced. -/
def jsonUnmarshal (K : FloatCodec) (text : String) : JVal K.F × Option String :=
  match parseJSON text.toList with
  | none => (JVal.null, some "invalid JSON text")
  | some doc =>
    (toInterface K doc,
      if numbersConvert K doc then none else some "json: cannot unmarshal number")

/-- Go `json.Marshal` on a value that `json.Unmarshal` produced; it cannot
fail on such a value, so the error result is always nil. Map entries are
written in increasing key order, which is the order the representation keeps
them in (`toInterface_sorted`). -/
def jsonMarshal (K : FloatCodec) (v : JVal K.F) : String × Option String :=
  (String.mk (encode K.formatFloat v), none)

mutual
/-- Rewrite the numbers of a value, keeping its shape. -/
def JVal.mapNum {α β : Type} (f : α → β) : JVal α → JVal β
  | JVal.null => JVal.null
  | JVal.bool b => JVal.bool b
  | JVal.num n => JVal.num (f n)
  | JVal.str s => JVal.str s
  | JVal.arr xs => JVal.arr (JList.mapNum f xs)
  | JVal.obj ms => JVal.obj (JMembers.mapNum f ms)
/-- Rewrite the numbers of the elements. -/
def JList.mapNum {α β : Type} (f : α → β) : JList α → JList β
  | JList.nil => JList.nil
  | JList.cons v tl => JList.cons (JVal.mapNum f v) (JList.mapNum f tl)
/-- Rewrite the numbers of the members. -/
def JMembers.mapNum {α β : Type} (f : α → β) : JMembers α → JMembers β
  | JMembers.nil => JMembers.nil
  | JMembers.cons k v tl => JMembers.cons k (JVal.mapNum f v) (JMembers.mapNum f tl)
end

mutual
/-- Number of nodes of a value, list cells included: fuel enough to parse its
encoding. -/
def JVal.size {α : Type} : JVal α → Nat
  | JVal.arr xs => 1 + JList.size xs
  | JVal.obj ms => 1 + JMembers.size ms
  | _ => 1
/-- Number of nodes of the elements. -/
def JList.size {α : Type} : JList α → Nat
  | JList.nil => 0
  | JList.cons v tl => 1 + JVal.size v + JList.size tl
/-- Number of nodes of the members. -/
def JMembers.size {α : Type} : JMembers α → Nat
  | JMembers.nil => 0
  | JMembers.cons _ v tl => 1 + JVal.size v + JMembers.size tl
end

/-- Every key of the members is greater than `k`. -/
def JMembers.keysAbove {α : Type} (k : List Char) : JMembers α → Bool
  | JMembers.nil => true
  | JMembers.cons k1 _ tl => keyLt k k1 && JMembers.keysAbove k tl

mutual
/-- The value is a Go value in the representation used here: the entries of
every map are in strictly increasing key order, so a key occurs once. -/
def JVal.isMapSorted {α : Type} : JVal α → Bool
  | JVal.arr xs => JList.isMapSorted xs
  | JVal.obj ms => JMembers.isMapSorted ms
  | _ => true
/-- The same for the elements of a slice. -/
def JList.isMapSorted {α : Type} : JList α → Bool
  | JList.nil => true
  | JList.cons v tl => JVal.isMapSorted v && JList.isMapSorted tl
/-- The same for the entries of a map. -/
def JMembers.isMapSorted {α : Type} : JMembers α → Bool
  | JMembers.nil => true
  | JMembers.cons k v tl =>
    JVal.isMapSorted v && JMembers.keysAbove k tl && JMembers.isMapSorted tl
end

/-- The last value given to a key by a list of members, in document order. -/
def JMembers.last {α : Type} (k : List Char) : JMembers α → Option (JVal α)
  | JMembers.nil => none
  | JMembers.cons k1 v tl =>
    match JMembers.last k tl with
    | some w => some w
    | none => if k1 = k then some v else none

/-- The keys of the members, in order. -/
def JMembers.keys {α : Type} : JMembers α → List (List Char)
  | JMembers.nil => []
  | JMembers.cons k _ tl => k :: JMembers.keys tl

/-- Concatenation of member lists. -/
def JMembers.append {α : Type} : JMembers α → JMembers α → JMembers α
  | JMembers.nil, ms => ms
  | JMembers.cons k v tl, ms => JMembers.cons k v (JMembers.append tl ms)

/-- The text that follows a value does not continue a number literal. -/
def NumStop (rest : List Char) : Prop := ∀ c r, rest = c :: r → isNumChar c = false

/-- A fuelled parser that succeeds consumes input, and succeeds with the same
result on any fuel at least as large, or at least twice the input consumed. -/
def FuelOk {β : Type} (f : Nat → List Char → Option (β × List Char)) (n : Nat) : Prop :=
  ∀ cs r, f n cs = some r →
    r.2.length < cs.length ∧
      ∀ m, (n ≤ m ∨ 2 * (cs.length - r.2.length) ≤ m) → f m cs = some r

/-- What a parser leaves is the end of what it was given. -/
def SuffixOk {β : Type} (f : Nat → List Char → Option (β × List Char)) (n : Nat) : Prop :=
  ∀ cs r, f n cs = some r → r.2 <:+ cs

/-- The first character of an encoded value: not white space and not a
closing bracket. -/
def HeadOk (l : List Char) : Prop :=
  ∃ c t, l = c :: t ∧ isJSONSpace c = false ∧ c ≠ ']' ∧ c ≠ '\x7d'

/-! ## Strings (`strings`, `unicode`) -/

/-- Go `unicode.IsSpace`: the Unicode White_Space characters. -/
def isSpace (c : Char) : Bool :=
  let n := c.toNat
  (9 ≤ n && n ≤ 13) || n == 0x20 || n == 0x85 || n == 0xA0 || n == 0x1680
    || (0x2000 ≤ n && n ≤ 0x200A) || n == 0x2028 || n == 0x2029 || n == 0x202F
    || n == 0x205F || n == 0x3000

/-- Go `strings.TrimSpace`: drop leading and trailing white space. -/
def trimSpace (s : String) : String :=
  String.mk (((s.toList.dropWhile isSpace).reverse.dropWhile isSpace).reverse)

/-- Go `strings.EqualFold` on the runes of two strings. Equal runes match; two
different ASCII runes match when the smaller is an upper-case letter and the
larger its lower-case form; a pair whose larger rune is not ASCII matches
when `foldOrbit small large` holds, which stands for the outcome of the
`unicode.SimpleFold` loop (the orbit of the smaller rune reaches the larger). -/
def equalFoldRunes (foldOrbit : Char → Char → Bool) : List Char → List Char → Bool
  | [], [] => true
  | [], _ :: _ => false
  | _ :: _, [] => false
  | a :: as, b :: bs =>
    if a = b then equalFoldRunes foldOrbit as bs
    else
      let sr := if b.toNat < a.toNat then b else a
      let tr := if b.toNat < a.toNat then a else b
      if tr.toNat < 0x80 then
        if 'A'.toNat ≤ sr.toNat ∧ sr.toNat ≤ 'Z'.toNat ∧ tr.toNat = sr.toNat + 32 then
          equalFoldRunes foldOrbit as bs
        else false
      else if foldOrbit sr tr then equalFoldRunes foldOrbit as bs
      else false

/-- Go `strings.EqualFold`. -/
def equalFold (foldOrbit : Char → Char → Bool) (s t : String) : Bool :=
  equalFoldRunes foldOrbit s.toList t.toList

/-- Case folding restricted to ASCII letters: no two different runes outside
ASCII are identified. It agrees with `unicode.SimpleFold` on ASCII text. -/
def asciiFold : Char → Char → Bool := fun _ _ => false

/-- Following the specification's words: the code of a character once an
upper-case letter `A`..`Z` is replaced by its lower-case form. -/
def lowerCode (c : Char) : Nat :=
  if 65 ≤ c.toNat ∧ c.toNat ≤ 90 then c.toNat + 32 else c.toNat

/-- Following the specification's words: two texts are equal ignoring letter
case when they have the same length and, position by position, the same
character once letters are put in lower case. -/
def sameIgnoringCase (s t : String) : Bool :=
  s.toList.map lowerCode == t.toList.map lowerCode

/-- A text of ASCII characters only. -/
def isASCII (s : String) : Bool := s.toList.all fun c => c.toNat < 128

/-! ## Headers (`net/http`, `net/textproto`) -/

/-- Go `validHeaderFieldByte`: the token characters of RFC 7230. -/
def validHeaderFieldByte (c : Char) : Bool :=
  let n := c.toNat
  (48 ≤ n && n ≤ 57) || (65 ≤ n && n ≤ 90) || (97 ≤ n && n ≤ 122)
    || [33, 35, 36, 37, 38, 39, 42, 43, 45, 46, 94, 95, 96, 124, 126].contains n

/-- The canonicalising loop: upper case at the start and after each `-`,
lower case elsewhere. -/
def canonicalLoop : Bool → List Char → List Char
  | _, [] => []
  | upper, c :: cs =>
    let c1 :=
      if upper ∧ 'a' ≤ c ∧ c ≤ 'z' then Char.ofNat (c.toNat - 32)
      else if ¬ upper ∧ 'A' ≤ c ∧ c ≤ 'Z' then Char.ofNat (c.toNat + 32)
      else c
    c1 :: canonicalLoop (c1 == '-') cs

/-- Go `textproto.CanonicalMIMEHeaderKey`: a key made of token characters is
put in canonical form; any other key is returned unchanged. -/
def canonicalMIMEHeaderKey (s : String) : String :=
  if s.toList.all validHeaderFieldByte then String.mk (canonicalLoop true s.toList) else s

/-- Go `http.Header`, a `map[string][]string`, as the list of its entries;
a key occurs at most once in a map built with `put`. -/
abbrev Header := List (String × List String)

/-- The map read `h[key]`; a missing key reads as the empty slice. -/
def Header.values (h : Header) (key : String) : List String :=
  match h with
  | [] => []
  | (k, vs) :: tl => if k = key then vs else Header.values tl key

/-- The map assignment `h[key] = vs`. -/
def Header.put (h : Header) (key : String) (vs : List String) : Header :=
  match h with
  | [] => [(key, vs)]
  | (k, ws) :: tl => if k = key then (key, vs) :: tl else (k, ws) :: Header.put tl key vs

/-- Go `Header.Set`: the key is canonicalised and its values are replaced by
the single new value. -/
def Header.Set (h : Header) (key value : String) : Header :=
  Header.put h (canonicalMIMEHeaderKey key) [value]

/-- Go `Header.Add`: the key is canonicalised and the value is appended to the
values stored under it. -/
def Header.Add (h : Header) (key value : String) : Header :=
  Header.put h (canonicalMIMEHeaderKey key)
    (Header.values h (canonicalMIMEHeaderKey key) ++ [value])

/-- Go `Header.Get`: the first value stored under the canonical key, or the
empty string. It is defined on a nil map too. -/
def Header.Get (h : Header) (key : String) : String :=
  match Header.values h (canonicalMIMEHeaderKey key) with
  | [] => ""
  | v :: _ => v

/-! ## Requests and the transport -/

/-- The `*http.Request` handed to the client: the method, the URL text it was
built from, its header map and its body (`none` for a nil reader). -/
structure Request where
  method : String
  url : String
  header : Header
  body : Option String
deriving DecidableEq

/-- What is read of an `*http.Response`: status code, headers, and the result
of `ioutil.ReadAll` on the body (the bytes read and the read error). -/
structure Response where
  statusCode : Int
  header : Header
  body : String
  readErr : Option String
deriving DecidableEq

/-- The three results of `client.Do` that the code distinguishes. -/
inductive TransportResult where
  | failed (err : String)
  | nilResponse
  | response (r : Response)
deriving DecidableEq

/-- The network side of a send: `rejects method url` is the error with which
`http.NewRequest` refuses a method or a URL (`none` when it accepts them),
`roundTrip` is `client.Do`. -/
structure Net where
  rejects : String → String → Option String
  roundTrip : Request → TransportResult

/-- Go `http.NewRequest` once method and URL are accepted: an empty method
means GET and the header map is freshly made. -/
def newRequest (method url : String) (body : Option String) : Request :=
  { method := if method = "" then "GET" else method, url := url, header := [], body := body }

/-! ## Scenario state and tables -/

/-- The configuration read from the environment. -/
structure EnvConfig where
  BaseURL : String
deriving DecidableEq

/-- The per-scenario state. `requestHeader` is `none` while the map is nil
(before the first scenario hook has run); the client is the `Net` argument of
the send functions. -/
structure apiFeature where
  config : EnvConfig
  responseCode : Int
  responseBody : String
  responseHeader : Header
  requestHeader : Option Header
  requestBody : String
deriving DecidableEq

/-- A cell of a Gherkin data table. -/
structure TableCell where
  Value : String
deriving DecidableEq

/-- A row of a Gherkin data table. -/
structure TableRow where
  Cells : List TableCell
deriving DecidableEq

/-- A Gherkin data table. -/
structure DataTable where
  Rows : List TableRow
deriving DecidableEq

/-- What a step leaves behind when it returns: the state, the returned error
and the requests handed to the transport during the step. -/
structure StepResult where
  api : apiFeature
  err : Option String
  wire : List Request
deriving DecidableEq

/-- A call either returns or panics. -/
inductive Outcome (α : Type) where
  | panic (reason : String)
  | ret (a : α)
deriving DecidableEq

/-! ## The step functions -/

/-- Source `resetResponse`. -/
def resetResponse (api : apiFeature) : apiFeature :=
  { api with responseBody := "", responseCode := 0 }

/-- Source `setHeaderWithValue`. -/
def setHeaderWithValue (api : apiFeature) (header value : String) : Outcome StepResult :=
  match api.requestHeader with
  | none => Outcome.panic "assignment to entry in nil map"
  | some h =>
    Outcome.ret { api := { api with requestHeader := some (Header.Set h header value) },
                  err := none, wire := [] }

/-- The loop of `setHeadersWithValues`: one `Add` per row. -/
def addHeaderRows : Option Header → List TableRow → Outcome (Option Header)
  | h, [] => Outcome.ret h
  | h, row :: rows =>
    match row.Cells with
    | c0 :: c1 :: _ =>
      match h with
      | none => Outcome.panic "assignment to entry in nil map"
      | some m => addHeaderRows (some (Header.Add m c0.Value c1.Value)) rows
    | _ => Outcome.panic "index out of range"

/-- Source `setHeadersWithValues`. -/
def setHeadersWithValues (api : apiFeature) (headersTable : DataTable) : Outcome StepResult :=
  match headersTable.Rows with
  | [] => Outcome.panic "index out of range"
  | row0 :: _ =>
    if row0.Cells.length ≠ 2 then
      Outcome.ret { api := api, wire := [],
                    err := some ("expected two columns for event table row, got: "
                      ++ toString row0.Cells.length) }
    else
      match addHeaderRows api.requestHeader headersTable.Rows with
      | Outcome.panic r => Outcome.panic r
      | Outcome.ret h => Outcome.ret { api := { api with requestHeader := h }, err := none, wire := [] }

/-- Source `sendHTTPRequest`; `body` is the reader's content, `none` for a
nil reader. -/
def sendHTTPRequest (N : Net) (api : apiFeature) (method endpoint : String)
    (body : Option String) : StepResult :=
  if (trimSpace api.config.BaseURL).length = 0 then
    { api := api, err := some ("base URL not set for endpoint : " ++ endpoint), wire := [] }
  else
    let endpoint := api.config.BaseURL ++ endpoint
    match N.rejects method endpoint with
    | some e => { api := api, err := some e, wire := [] }
    | none =>
      let req0 := newRequest method endpoint body
      let req := match api.requestHeader with
        | some h => { req0 with header := h }
        | none => req0
      match N.roundTrip req with
      | TransportResult.failed e => { api := api, err := some e, wire := [req] }
      | TransportResult.nilResponse =>
        { api := api, err := some ("unable to get response from endpoint: " ++ endpoint),
          wire := [req] }
      | TransportResult.response r =>
        { api := { api with responseCode := r.statusCode, responseHeader := r.header,
                            responseBody := r.body },
          err := r.readErr.map fun e => "error error reading response body.  error:  " ++ e,
          wire := [req] }

/-- The loop of `sendARequestToWithValues`: `variablesMap[key] = value` per
row, on a `map[string]string` kept as its entries in key order. -/
def fillVariablesMap : JMembers Empty → List TableRow → Outcome (JMembers Empty)
  | m, [] => Outcome.ret m
  | m, row :: rows =>
    match row.Cells with
    | c0 :: c1 :: _ =>
      fillVariablesMap (JMembers.insert c0.Value.toList (JVal.str c1.Value.toList) m) rows
    | _ => Outcome.panic "index out of range"

/-- Go `json.Marshal` on a `map[string]string`: an object with string values,
keys in increasing order. It cannot fail. -/
def marshalStringMap (m : JMembers Empty) : String :=
  String.mk (encode (fun e : Empty => e.elim) (JVal.obj m))

/-- Source `sendARequestToWithValues`. -/
def sendARequestToWithValues (N : Net) (api : apiFeature) (method endpoint : String)
    (valuesTable : DataTable) : Outcome StepResult :=
  match valuesTable.Rows with
  | [] => Outcome.panic "index out of range"
  | row0 :: _ =>
    if row0.Cells.length ≠ 2 then
      Outcome.ret { api := api, wire := [],
                    err := some ("expected two columns for event table row, got: "
                      ++ toString row0.Cells.length) }
    else
      match fillVariablesMap JMembers.nil valuesTable.Rows with
      | Outcome.panic r => Outcome.panic r
      | Outcome.ret variablesMap =>
        Outcome.ret (sendHTTPRequest N api method endpoint (some (marshalStringMap variablesMap)))

/-- Source `responseCodeShouldBe`. -/
def responseCodeShouldBe (api : apiFeature) (responseCode : Int) : Option String :=
  if responseCode ≠ api.responseCode then
    if api.responseCode ≥ 400 then
      some ("expected response code to be: " ++ toString responseCode ++ ", but actual is: "
        ++ toString api.responseCode ++ ", response message: " ++ api.responseBody)
    else
      some ("expected response code to be: " ++ toString responseCode ++ ", but actual is: "
        ++ toString api.responseCode)
  else none

/-- Source `responseShouldContainJSON`, with the successive values of the
result variable `err` written out. The error of the first `Unmarshal` is
overwritten by the result of the `Marshal` that follows it; the error of the
second `Unmarshal` lives in a variable of the `if` statement, which shadows the
result variable. -/
def responseShouldContainJSON (K : FloatCodec) (api : apiFeature) (responseJSON : String) :
    Option String :=
  let (data, err1) := jsonUnmarshal K responseJSON
  let _errAfterUnmarshal := err1.map fun e => "error unmarshalling expected data: " ++ e
  let (expected, err2) := jsonMarshal K data
  let _errAfterMarshal := err2.map fun e => "error marshalling expected data: " ++ e
  let (actualData, shadowed) := jsonUnmarshal K api.responseBody
  let _errInner := shadowed.map fun e => "error unmarshalling actual data: " ++ e
  let (actual, err3) := jsonMarshal K actualData
  let err := err3.map fun e => "error marshalling actual data: " ++ e
  if actual ≠ expected then
    some ("expected json " ++ expected ++ ", does not match actual: " ++ actual)
  else err

/-- Source `responseHeaderShouldBe`. -/
def responseHeaderShouldBe (foldOrbit : Char → Char → Bool) (api : apiFeature)
    (header value : String) : Option String :=
  let headerValue := Header.Get api.responseHeader header
  if headerValue = "" ∧ headerValue.length = 0 then
    some ("header : " ++ header ++ " not found in the response")
  else if ¬ equalFold foldOrbit headerValue value then
    some ("expected header (" ++ header ++ ") value: " ++ value
      ++ ", not equal to actual response header value: " ++ headerValue)
  else none

/-! ## JSON paths (`gjson`) -/

/-- The value kinds of a `gjson.Result`. -/
inductive GType where
  | Null | False | Number | String | True | JSON
deriving DecidableEq

/-- A `gjson.Result`: its kind, the raw text of the value, the unquoted text
of a string value, and `num`, the text `String()` gives for a number. -/
structure GResult where
  type : GType
  raw : String
  str : String
  num : String
deriving DecidableEq

/-- Go `Result.Exists`: the kind is not Null or the raw text is not empty. -/
def GResult.Exists (r : GResult) : Bool := r.type ≠ GType.Null || r.raw.length ≠ 0

/-- Go `Result.String`. -/
def GResult.String (r : GResult) : String :=
  match r.type with
  | GType.Null => ""
  | GType.False => "false"
  | GType.Number => r.num
  | GType.String => r.str
  | GType.JSON => r.raw
  | GType.True => "true"

/-- Source `responseBodyPathShouldBe`; `get` is `gjson.Get`. -/
def responseBodyPathShouldBe (get : String → String → GResult)
    (foldOrbit : Char → Char → Bool) (api : apiFeature) (jsonPath value : String) :
    Option String :=
  let actual := get api.responseBody jsonPath
  if ¬ actual.Exists then
    some ("response body path : " ++ jsonPath ++ " not found in the response")
  else if ¬ equalFold foldOrbit actual.String value then
    some ("expected response value : " ++ value ++ " not equal to the actual value : "
      ++ actual.String ++ " for the response body path : " ++ jsonPath)
  else none

/-- Split a path at its dots. -/
def splitDots : List Char → List (List Char)
  | [] => [[]]
  | c :: cs =>
    match splitDots cs with
    | [] => [[c]]
    | seg :: segs => if c = '.' then [] :: seg :: segs else (c :: seg) :: segs

/-- The element at an index. -/
def JList.nth {α : Type} : JList α → Nat → Option (JVal α)
  | JList.nil, _ => none
  | JList.cons v _, 0 => some v
  | JList.cons _ tl, n + 1 => JList.nth tl n

/-- Decimal value of a run of digits. -/
def digitsValue (ds : List Char) : Nat :=
  ds.foldl (fun acc d => acc * 10 + (d.toNat - 48)) 0

/-- A path segment that addresses an array element: a non-empty run of
digits. -/
def isIndex (seg : List Char) : Bool := !seg.isEmpty && seg.all isDigit

/-- The index `parseArray` takes from a path segment: `parseUint` adds up the
digits in a `uint64`, which wraps, and the conversion to `int` makes a value
from `2^63` on negative, an index no element has. A segment that is not a run
of digits gives index `-1`, which no element has either. (Earlier releases
call `strconv.ParseUint`, which differs on runs of twenty digits and more.) -/
def arrayIndex (seg : List Char) : Option Nat :=
  if isIndex seg then
    if digitsValue seg % 2 ^ 64 < 2 ^ 63 then some (digitsValue seg % 2 ^ 64) else none
  else none

/-- Following the specification's words, on the parsed body: the first member
of an object that has the given key and under which the rest of the path,
`k`, leads to a value. -/
def JMembers.firstResolving {α : Type} (seg : List Char) (k : JVal α → Option (JVal α)) :
    JMembers α → Option (JVal α)
  | JMembers.nil => none
  | JMembers.cons k1 v tl =>
    match (if k1 = seg then k v else none) with
    | some w => some w
    | none => JMembers.firstResolving seg k tl

/-- Following the specification's words, on the parsed body: the value a
dot-separated path resolves to, `none` when it resolves to nothing. A segment
selects a member of an object by key, or an element of an array by index; no
segment leads into a string, number, boolean or null. -/
def resolvePath : List (List Char) → JVal (List Char) → Option (JVal (List Char))
  | [], v => some v
  | seg :: more, v =>
    match v with
    | JVal.obj ms => JMembers.firstResolving seg (resolvePath more) ms
    | JVal.arr xs =>
      if isIndex seg then
        match JList.nth xs (digitsValue seg) with
        | none => none
        | some w => resolvePath more w
      else none
    | _ => none

/-- The zero `gjson.Result`, returned when nothing is found; it does not
exist. -/
def GResult.zero : GResult := { type := GType.Null, raw := "", str := "", num := "" }

/-- The `gjson.Result` for a value found in a document: `raw` is the text of
the value as it stands in the document, `numString lit` the text `String()`
gives for a number written `lit` (the float formatted with
`strconv.FormatFloat(f, 'f', -1, 64)`; later releases return an integer
literal unchanged). -/
def resultOf (numString : List Char → String) (v : JVal (List Char)) (raw : List Char) :
    GResult :=
  match v with
  | JVal.null => { type := GType.Null, raw := String.mk raw, str := "", num := "" }
  | JVal.bool true => { type := GType.True, raw := String.mk raw, str := "", num := "" }
  | JVal.bool false => { type := GType.False, raw := String.mk raw, str := "", num := "" }
  | JVal.num lit => { type := GType.Number, raw := String.mk raw, str := "", num := numString lit }
  | JVal.str s => { type := GType.String, raw := String.mk raw, str := String.mk s, num := "" }
  | JVal.arr _ => { type := GType.JSON, raw := String.mk raw, str := "", num := "" }
  | JVal.obj _ => { type := GType.JSON, raw := String.mk raw, str := "", num := "" }

mutual
/-- The scan of `gjson.Get` from the start of a value, for the path segments
left. With no segment left the value at hand is the result, its raw text the
part of the input it occupies; otherwise the scan enters an object or, for an
index, an array. -/
def getAt (numString : List Char → String) :
    Nat → List (List Char) → List Char → Option GResult
  | 0, _, _ => none
  | fuel + 1, [], cs =>
    match parseValue (fuel + 1) cs with
    | none => none
    | some (v, rest) => some (resultOf numString v (cs.take (cs.length - rest.length)))
  | fuel + 1, seg :: more, cs =>
    match cs with
    | [] => none
    | c :: r =>
      if c = '\x7b' then membersAt numString fuel seg more (skipWS r)
      else if c = '[' then
        match arrayIndex seg with
        | some idx => elemsAt numString fuel idx more (skipWS r)
        | none => none
      else none
/-- The scan of an object (`parseObject`), at the start of a member: a member
whose key is the segment is entered with the rest of the path; when nothing is
found there, or the key differs, the value is skipped and the scan goes on
with the next member. -/
def membersAt (numString : List Char → String) :
    Nat → List Char → List (List Char) → List Char → Option GResult
  | 0, _, _, _ => none
  | fuel + 1, seg, more, cs =>
    match cs with
    | [] => none
    | q :: r =>
      if q = '"' then
        match parseStr (r.length + 1) r with
        | none => none
        | some (k, r1) =>
          match skipWS r1 with
          | [] => none
          | col :: r2 =>
            if col = ':' then
              match parseValue fuel (skipWS r2) with
              | none => none
              | some (_, r3) =>
                match (if k = seg then getAt numString fuel more (skipWS r2) else none) with
                | some res => some res
                | none =>
                  match skipWS r3 with
                  | [] => none
                  | d :: r4 =>
                    if d = ',' then membersAt numString fuel seg more (skipWS r4) else none
            else none
      else none
/-- The scan of an array (`parseArray`), at the start of an element: the
element at the index is entered with the rest of the path, the elements
before it are skipped. -/
def elemsAt (numString : List Char → String) :
    Nat → Nat → List (List Char) → List Char → Option GResult
  | 0, _, _, _ => none
  | fuel + 1, idx, more, cs =>
    match parseValue fuel cs with
    | none => none
    | some (_, r1) =>
      match idx with
      | 0 => getAt numString fuel more cs
      | i + 1 =>
        match skipWS r1 with
        | [] => none
        | d :: r2 => if d = ',' then elemsAt numString fuel i more (skipWS r2) else none
end

/-- The loop that opens `gjson.Get`: the text from its first `\x7b` or `[`
on, whatever stands before it. -/
def fromFirstBracket (cs : List Char) : List Char :=
  cs.dropWhile fun c => !(c == '\x7b' || c == '[')

/-- A model of `gjson.Get` for well-formed documents and plain paths
(dot-separated object keys and array indexes): the result of scanning the
document text along the path from its first bracket, and the zero `Result`
when nothing is found. A document that is not well-formed, on which `gjson`
gives no guarantee, is given the zero `Result`. The scan steps over a value
with the parser of the document, where `gjson` squashes it without
checking; the two agree on well-formed text. String escapes are read as
`encoding/json` reads them. The model is meant for the documents of
`isPlainDocument` and the paths of `isPlainPath`. -/
def gjsonGet (numString : List Char → String) (json path : String) : GResult :=
  match parseJSON json.toList with
  | none => GResult.zero
  | some _ =>
    match getAt numString (2 * json.toList.length + 2) (splitDots path.toList)
        (fromFirstBracket json.toList) with
    | none => GResult.zero
    | some res => res

/-- The first bracket of the document, if it has one, opens its value: the
text has no `\x7b` or `[` at all, or its first one is its first character
other than white space. This holds of every document that is an object, an
array, a number, a boolean or null, and of a string with no bracket in it;
`gjson.Get` scans from the first bracket without reading what precedes it. -/
def bracketFirst (json : String) : Bool :=
  fromFirstBracket json.toList == [] || fromFirstBracket json.toList == skipWS json.toList

/-- The text has a `\u` escape that writes a surrogate (`\ud...`). -/
def hasSurrogateEscape (cs : List Char) : Bool :=
  (List.zip cs (List.zip (cs.drop 1) (cs.drop 2))).any fun t =>
    t.1 == '\\' && t.2.1 == 'u' && (t.2.2 == 'd' || t.2.2 == 'D')

/-- The documents the model of `gjson.Get` is meant for: the first bracket
opens the value, and no `\u` escape writes a surrogate, which the `unescape`
of `gjson` and `encoding/json` read differently when it has no partner. -/
def isPlainDocument (json : String) : Bool :=
  bracketFirst json && !hasSurrogateEscape json.toList

/-- An index segment small enough for `int`. -/
def indexInRange (seg : List Char) : Bool := !isIndex seg || digitsValue seg < 2 ^ 63

/-- The paths the model of `gjson.Get` is meant for: letters, digits, `_`, `-`
and separating dots, not starting with two dots, every index below `2^63`.
None of the characters that `gjson` reads as a wildcard, query, modifier, pipe
or escape occurs. -/
def isPlainPath (path : String) : Bool :=
  path.toList.all (fun c => c.isAlphanum || c == '_' || c == '-' || c == '.')
    && !(['.', '.'].isPrefixOf path.toList)
    && (splitDots path.toList).all indexInRange

/-- How a scan result agrees with the value a path resolves to in the text
`cs`: nothing is found when the path resolves to nothing; otherwise what is
found is the `Result` of the resolved value, and its raw text is a piece of
`cs` from which the parser reads that very value. -/
def Agrees (numString : List Char → String) (cs : List Char) (found : Option GResult)
    (resolved : Option (JVal (List Char))) : Prop :=
  match resolved with
  | none => found = none
  | some w =>
    ∃ before raw after, cs = before ++ raw ++ after ∧ raw ≠ [] ∧
      (∃ n, parseValue n (raw ++ after) = some (w, after)) ∧
      found = some (resultOf numString w raw)

/-- Following the specification's words, the stringified form of a value a
path resolves to in the body: the text of a string without its quotes and
with its escapes read, a number as `numString` writes it, `true` or `false`
for a boolean, the empty text for null, and for an object or an array its own
text in the body, a piece of the body from which the parser reads that very
value. -/
def Stringified (numString : List Char → String) (body : String) (w : JVal (List Char))
    (actual : String) : Prop :=
  match w with
  | JVal.null => actual = ""
  | JVal.bool b => actual = if b then "true" else "false"
  | JVal.num lit => actual = numString lit
  | JVal.str s => actual = String.mk s
  | _ =>
    ∃ before raw after, body.toList = before ++ raw ++ after ∧ raw ≠ [] ∧
      (∃ n, parseValue n (raw ++ after) = some (w, after)) ∧ actual = String.mk raw

/-- The scan agrees with the resolution at every value, for the given fuel. -/
def ScanValue (numString : List Char → String) (n : Nat) : Prop :=
  ∀ cs v rest, parseValue n cs = some (v, rest) →
    ∀ segs : List (List Char), segs.all indexInRange = true →
      Agrees numString cs (getAt numString n segs cs) (resolvePath segs v)

/-- The scan agrees with the resolution in every member list. -/
def ScanMembers (numString : List Char → String) (n : Nat) : Prop :=
  ∀ cs ms rest, parseMembers n cs = some (ms, rest) →
    ∀ (seg : List Char) (more : List (List Char)), more.all indexInRange = true →
      Agrees numString cs (membersAt numString n seg more cs)
        (JMembers.firstResolving seg (resolvePath more) ms)

/-- The scan agrees with the resolution in every element list. -/
def ScanElems (numString : List Char → String) (n : Nat) : Prop :=
  ∀ cs xs rest, parseElems n cs = some (xs, rest) →
    ∀ (idx : Nat) (more : List (List Char)), more.all indexInRange = true →
      Agrees numString cs (elemsAt numString n idx more cs)
        (match JList.nth xs idx with
         | none => none
         | some w => resolvePath more w)

/-! ## The scenario hook -/

/-- The `BeforeScenario` hook registered by `HTTPFeatureContext`; `envConfig`
is the configuration that `env.Parse` reads from the environment. The fresh
`http.Client` is the `Net` argument of the sends of the scenario. -/
def beforeScenario (envConfig : EnvConfig) (api : apiFeature) : apiFeature :=
  let api := resetResponse api
  { api with config := envConfig, requestHeader := some [], requestBody := "" }

/-! ## Two-column tables -/

/-- The table with one two-cell row per pair, in order. Every table whose rows
all have exactly two cells is of this form. -/
def tableOf (pairs : List (String × String)) : DataTable :=
  { Rows := pairs.map fun p => { Cells := [{ Value := p.1 }, { Value := p.2 }] } }

/-- The value of the last pair with the given key, as a JSON string. -/
def lastValue (pairs : List (String × String)) (k : List Char) : Option (JVal Empty) :=
  (pairs.reverse.find? fun p => p.1.toList = k).map fun p => JVal.str p.2.toList

/-! ## Reference instances used for concrete runs -/

/-- A codec that keeps a number as its literal text, so that two numbers are
equal when they are written the same way; it agrees with `float64` on the
equality of numbers written in the encoder's own form, such as small
integers. -/
def literalCodec : FloatCodec where
  F := { lit : List Char // isValidNumber lit = true }
  parseFloat := fun lit => if h : isValidNumber lit = true then some ⟨lit, h⟩ else none
  formatFloat := fun f => f.val

/-- The text `Result.String()` gives for a number written without an
exponent and with at most fifteen significant digits, which `float64` holds
exactly: `FormatFloat(f, 'f', -1, 64)` writes the shortest text that reads
back, which is the literal without the zeros that end its fraction, and
without the dot when no fraction is left. A literal with an exponent is
outside this domain and is left as written. -/
def decimalNumString (lit : List Char) : String :=
  if lit.any (fun c => c == 'e' || c == 'E') then String.mk lit
  else
    let whole := lit.takeWhile (fun c => c != '.')
    let frac := ((lit.dropWhile (fun c => c != '.')).drop 1).reverse.dropWhile (fun c => c == '0')
    if frac.isEmpty then String.mk whole else String.mk (whole ++ '.' :: frac.reverse)

/-- A transport that accepts every request line and answers 200 with the
body `OK`, like the handler of the repository's tests. -/
def okNet : Net where
  rejects := fun _ _ => none
  roundTrip := fun _ =>
    TransportResult.response { statusCode := 200, header := [], body := "OK", readErr := none }

/-- The state `setupTests` of the repository's tests builds, with a base URL. -/
def testState (baseURL : String) : apiFeature :=
  { config := { BaseURL := baseURL }, responseCode := 0, responseBody := "",
    responseHeader := [], requestHeader := some [], requestBody := "" }

/-! ## Supporting lemmas -/

/-! ### Headers and strings -/

theorem Header.values_put_same (h : Header) (key : String) (vs : List String) :
    Header.values (Header.put h key vs) key = vs := by
  induction h with
  | nil => simp [Header.put, Header.values]
  | cons e tl ih =>
    obtain ⟨k, ws⟩ := e
    by_cases hk : k = key
    · simp [Header.put, Header.values, hk]
    · simp [Header.put, Header.values, hk, ih]

theorem append_ne_of_head (a b : String) (x y : Char) (p q : String) (hxy : x ≠ y)
    (ha : ∃ t, a.data = x :: t) (hb : ∃ t, b.data = y :: t) : a ++ p ≠ b ++ q := by
  intro h
  have h1 : (a ++ p).data = (b ++ q).data := by rw [h]
  obtain ⟨t, ht⟩ := ha
  obtain ⟨u, hu⟩ := hb
  simp [String.data_append, ht, hu] at h1
  exact hxy h1.1

theorem dropWhile_all_of_reverse {p : Char → Bool} (m : List Char)
    (h : m.reverse.dropWhile p = []) (hm : ∀ c r, m = c :: r → p c = false) : m = [] := by
  rw [List.dropWhile_eq_nil_iff] at h
  cases m with
  | nil => rfl
  | cons c r =>
    have h1 := h c (by simp)
    have h2 := hm c r rfl
    simp [h1] at h2

theorem dropWhile_head_false {p : Char → Bool} (l : List Char) :
    ∀ c r, l.dropWhile p = c :: r → p c = false := by
  intro c r h
  have := List.head_dropWhile_not p l
  simp [h] at this
  exact this

theorem trimSpace_blank (s : String) :
    (trimSpace s).length = 0 ↔ s.toList.all isSpace = true := by
  unfold trimSpace
  simp only [String.length]
  rw [List.length_eq_zero, List.reverse_eq_nil_iff]
  constructor
  · intro h
    have h1 := dropWhile_all_of_reverse _ h (dropWhile_head_false _)
    rw [List.dropWhile_eq_nil_iff] at h1
    simpa using h1
  · intro h
    have h1 : s.data.dropWhile isSpace = [] := by
      rw [List.dropWhile_eq_nil_iff]; simpa using h
    simp [h1]

theorem Header.values_put_other (h : Header) (key other : String) (vs : List String)
    (hne : other ≠ key) : Header.values (Header.put h key vs) other = Header.values h other := by
  induction h with
  | nil => simp [Header.put, Header.values, Ne.symm hne]
  | cons e tl ih =>
    obtain ⟨k, ws⟩ := e
    by_cases hk : k = key
    · subst hk
      simp [Header.put, Header.values, Ne.symm hne]
    · by_cases ho : k = other
      · subst ho
        simp [Header.put, Header.values, hk]
      · simp [Header.put, Header.values, hk, ho, ih]

theorem Header.Get_eq_empty (h : Header) (name : String) :
    Header.Get h name = "" ↔
      Header.values h (canonicalMIMEHeaderKey name) = [] ∨
      (Header.values h (canonicalMIMEHeaderKey name)).head? = some "" := by
  unfold Header.Get
  cases Header.values h (canonicalMIMEHeaderKey name) with
  | nil => simp
  | cons v vs => simp

/-! ### String literals: reading back what the encoder wrote -/

theorem hexVal_hexDigit : ∀ n, n < 16 → hexVal (hexDigit n) = some n := by decide

theorem getu4_u00 (c : Char) (h : c.toNat < 128) (R : List Char) :
    getu4 ('\\' :: 'u' :: '0' :: '0' :: hexDigit (c.toNat / 16) :: hexDigit (c.toNat % 16) :: R)
      = some (c.toNat, R) := by
  have h1 := hexVal_hexDigit (c.toNat / 16) (by omega)
  have h2 := hexVal_hexDigit (c.toNat % 16) (by omega)
  have h0 : hexVal '0' = some 0 := by decide
  simp only [getu4, h0, h1, h2]
  congr 2
  omega

theorem parseStr_escapeChar (c : Char) (f : Nat) (R : List Char) :
    parseStr (f + 1) (escapeChar c ++ R) = (parseStr f R).map fun p => (c :: p.1, p.2) := by
  unfold escapeChar
  split_ifs with h1 h2 h3 h4 h5 h6 h7 h8
  · subst h1; simp [parseStr, simpleEscape]
  · subst h2; simp [parseStr, simpleEscape]
  · subst h3; simp [parseStr, simpleEscape]
  · subst h4; simp [parseStr, simpleEscape]
  · subst h5; simp [parseStr, simpleEscape]
  · have hc : c.toNat < 128 := by
      rcases h6 with h | h | h | h
      · omega
      · subst h; decide
      · subst h; decide
      · subst h; decide
    have hg := getu4_u00 c hc R
    simp only [List.cons_append, List.nil_append]
    rw [parseStr]
    simp only [hg]
    have hs : ¬ (0xD800 ≤ c.toNat ∧ c.toNat < 0xE000) := by omega
    simp [hs, Char.ofNat_toNat]
  · have hc : c = Char.ofNat 0x2028 := by
      rw [← h7, Char.ofNat_toNat]
    subst hc
    simp [parseStr, getu4, hexVal]
  · have hc : c = Char.ofNat 0x2029 := by
      rw [← h8, Char.ofNat_toNat]
    subst hc
    simp [parseStr, getu4, hexVal]
  · have h9 : ¬ c.toNat < 32 := fun h => h6 (Or.inl h)
    simp [parseStr, h1, h2, h9]

theorem parseStr_escapeString (s : List Char) :
    ∀ (f : Nat) (rest : List Char), s.length + 1 ≤ f →
      parseStr f (escapeString s ++ '"' :: rest) = some (s, rest) := by
  induction s with
  | nil =>
    intro f rest hf
    obtain ⟨g, rfl⟩ : ∃ g, f = g + 1 := ⟨f - 1, by simp at hf; omega⟩
    simp [escapeString, parseStr]
  | cons c cs ih =>
    intro f rest hf
    obtain ⟨g, rfl⟩ : ∃ g, f = g + 1 := ⟨f - 1, by simp at hf; omega⟩
    simp only [escapeString, List.append_assoc]
    rw [parseStr_escapeChar, ih g rest (by simp at hf; omega)]
    rfl

/-! ### Number literals -/

theorem isDigit_isNumChar (c : Char) (h : isDigit c = true) : isNumChar c = true := by
  simp [isNumChar, h]

theorem all_of_dropWhile (p q : Char → Bool) (hpq : ∀ c, q c = true → p c = true) (l : List Char)
    (h : (l.dropWhile q).all p = true) : l.all p = true := by
  induction l with
  | nil => rfl
  | cons c cs ih =>
    cases hq : q c
    · simpa [List.dropWhile, hq] using h
    · simp only [List.dropWhile, hq] at h
      simp [hpq c hq, ih h]

theorem numExp_all (s : List Char) (h : numExp s = true) : s.all isNumChar = true := by
  cases s with
  | nil => rfl
  | cons e u =>
    simp only [numExp] at h
    split_ifs at h with he
    · obtain ⟨he1, _⟩ := he
      have hE : isNumChar e = true := by
        rcases he1 with h1 | h1 <;> subst h1 <;> decide
      cases u with
      | nil => simp at h
      | cons g t =>
        simp only at h
        split_ifs at h with hg
        · have hG : isNumChar g = true := by
            rcases hg with h1 | h1 <;> subst h1 <;> decide
          simp at h
          have : t.all isNumChar = true :=
            List.all_eq_true.mpr fun x hx => isDigit_isNumChar x (h.2 x hx)
          simp only [List.all_cons, hE, hG, this, Bool.and_self]
        · simp at h
          have : t.all isNumChar = true :=
            List.all_eq_true.mpr fun x hx => isDigit_isNumChar x (h.2 x hx)
          simp only [List.all_cons, hE, isDigit_isNumChar g h.1, this, Bool.and_self]

theorem numFrac_all (s : List Char) (h : (numFrac s).all isNumChar = true) :
    s.all isNumChar = true := by
  unfold numFrac at h
  split at h
  · rename_i f t
    split_ifs at h with hf
    · have := all_of_dropWhile isNumChar isDigit isDigit_isNumChar t h
      have hd : isNumChar '.' = true := by decide
      simp [hd, isDigit_isNumChar f hf, this]
    · exact h
  · exact h

theorem numInt_all (s s2 : List Char) (h : numInt s = some s2)
    (h2 : s2.all isNumChar = true) :
    s.all isNumChar = true ∧ ∃ c t, s = c :: t ∧ isDigit c = true := by
  cases s with
  | nil => simp [numInt] at h
  | cons d t =>
    simp only [numInt] at h
    split_ifs at h with h0 hd
    · simp only [Option.some.injEq] at h
      subst h; subst h0
      refine ⟨?_, _, _, rfl, by decide⟩
      have : isNumChar '0' = true := by decide
      simp [this, h2]
    · simp only [Option.some.injEq] at h
      subst h
      have := all_of_dropWhile isNumChar isDigit isDigit_isNumChar t h2
      exact ⟨by simp [isDigit_isNumChar d hd, this], _, _, rfl, hd⟩

theorem isValidNumber_shape (s : List Char) (h : isValidNumber s = true) :
    s.all isNumChar = true ∧ ∃ c t, s = c :: t ∧ (c = '-' ∨ isDigit c = true) := by
  unfold isValidNumber at h
  split at h
  · simp at h
  · rename_i s2 hint
    have h2 := numFrac_all s2 (numExp_all _ h)
    unfold numSign at hint
    split at hint
    · rename_i t
      obtain ⟨ha, c, u, hcu, hc⟩ := numInt_all _ _ hint h2
      have hm : isNumChar '-' = true := by decide
      exact ⟨by simp [hm, ha], '-', t, rfl, Or.inl rfl⟩
    · obtain ⟨ha, c, u, hcu, hc⟩ := numInt_all _ _ hint h2
      exact ⟨ha, c, u, hcu, Or.inr hc⟩

theorem takeWhile_append_stop (p : Char → Bool) (l rest : List Char) (hl : l.all p = true)
    (hr : ∀ c r, rest = c :: r → p c = false) :
    (l ++ rest).takeWhile p = l ∧ (l ++ rest).dropWhile p = rest := by
  induction l with
  | nil =>
    cases rest with
    | nil => simp
    | cons c r => simp [List.takeWhile, List.dropWhile, hr c r rfl]
  | cons a l ih =>
    simp only [List.all_cons, Bool.and_eq_true] at hl
    simp [List.takeWhile, List.dropWhile, hl.1, ih hl.2]

/-! ### Values: reading back what the encoder wrote -/

theorem skipWS_cons (c : Char) (cs : List Char) (h : isJSONSpace c = false) :
    skipWS (c :: cs) = c :: cs := by
  simp [skipWS, h]

theorem isDigit_head_facts (c : Char) (h : c = '-' ∨ isDigit c = true) :
    isJSONSpace c = false ∧ c ≠ ']' ∧ c ≠ '\x7d' ∧ c ≠ '\x7b' ∧ c ≠ '[' ∧ c ≠ '"' := by
  rcases h with h | h
  · subst h; decide
  · refine ⟨?_, ?_, ?_, ?_, ?_, ?_⟩
    · cases hs : isJSONSpace c
      · rfl
      · simp only [isJSONSpace, Bool.or_eq_true, beq_iff_eq] at hs
        rcases hs with ((h1 | h1) | h1) | h1 <;> subst h1 <;> revert h <;> decide
    all_goals
      intro hc; subst hc; revert h; decide

theorem encode_head {α : Type} (fmt : α → List Char)
    (hfmt : ∀ n, isValidNumber (fmt n) = true) (v : JVal α) : HeadOk (encode fmt v) := by
  cases v with
  | null => exact ⟨'n', ['u', 'l', 'l'], by simp [encode], by decide, by decide, by decide⟩
  | bool b =>
    cases b
    · exact ⟨'f', ['a', 'l', 's', 'e'], by simp [encode], by decide, by decide, by decide⟩
    · exact ⟨'t', ['r', 'u', 'e'], by simp [encode], by decide, by decide, by decide⟩
  | num n =>
    obtain ⟨_, c, t, hct, hc⟩ := isValidNumber_shape _ (hfmt n)
    obtain ⟨h1, h2, h3, _⟩ := isDigit_head_facts c hc
    exact ⟨c, t, by simp [encode, hct], h1, h2, h3⟩
  | str s =>
    exact ⟨'"', escapeString s ++ ['"'], by simp [encode, quoteString], by decide, by decide,
      by decide⟩
  | arr xs =>
    cases xs with
    | nil => exact ⟨'[', [']'], by simp [encode], by decide, by decide, by decide⟩
    | cons v tl =>
      exact ⟨'[', encode fmt v ++ encodeTail fmt tl, by simp [encode], by decide, by decide,
        by decide⟩
  | obj ms =>
    cases ms with
    | nil => exact ⟨'\x7b', ['\x7d'], by simp [encode], by decide, by decide, by decide⟩
    | cons k v tl =>
      exact ⟨'\x7b', quoteString k ++ ':' :: (encode fmt v ++ encodeMembersTail fmt tl),
        by simp [encode], by decide, by decide, by decide⟩

theorem escapeString_length (s : List Char) : s.length ≤ (escapeString s).length := by
  induction s with
  | nil => simp
  | cons c cs ih =>
    have : 1 ≤ (escapeChar c).length := by
      unfold escapeChar; split_ifs <;> simp
    simp [escapeString]; omega

theorem parseValue_leaf {α : Type} (fmt : α → List Char)
    (hfmt : ∀ n, isValidNumber (fmt n) = true) (f : Nat) (rest : List Char)
    (hrest : NumStop rest) :
    parseValue (f + 1) (encode fmt (JVal.null : JVal α) ++ rest) = some (JVal.null, rest) ∧
    (∀ b, parseValue (f + 1) (encode fmt (JVal.bool b : JVal α) ++ rest)
      = some (JVal.bool b, rest)) ∧
    (∀ n, parseValue (f + 1) (encode fmt (JVal.num n) ++ rest)
      = some (JVal.num (fmt n), rest)) ∧
    (∀ s, parseValue (f + 1) (encode fmt (JVal.str s : JVal α) ++ rest)
      = some (JVal.str s, rest)) ∧
    parseValue (f + 1) (encode fmt (JVal.arr JList.nil : JVal α) ++ rest)
      = some (JVal.arr JList.nil, rest) ∧
    parseValue (f + 1) (encode fmt (JVal.obj JMembers.nil : JVal α) ++ rest)
      = some (JVal.obj JMembers.nil, rest) := by
  refine ⟨?_, ?_, ?_, ?_, ?_, ?_⟩
  · simp [encode, parseValue, isDigit]
  · intro b; cases b <;> simp [encode, parseValue, isDigit]
  · intro n
    obtain ⟨hall, c, t, hct, hc⟩ := isValidNumber_shape _ (hfmt n)
    obtain ⟨_, _, _, h4, h5, h6⟩ := isDigit_head_facts c hc
    obtain ⟨htake, hdrop⟩ := takeWhile_append_stop isNumChar (fmt n) rest hall hrest
    simp only [encode]
    have hcons : fmt n ++ rest = c :: (t ++ rest) := by simp [hct]
    rw [hcons, parseValue]
    simp only [h4, h5, h6, if_false, hc, if_true]
    rw [← hcons, htake, hdrop]
    simp [hfmt n]
  · intro s
    simp only [encode, quoteString, List.cons_append, List.append_assoc, List.singleton_append]
    rw [parseValue]
    simp
    apply parseStr_escapeString
    have := escapeString_length s
    omega
  · simp [encode, parseValue, skipWS, isJSONSpace]
  · simp [encode, parseValue, skipWS, isJSONSpace]

theorem JVal.size_pos {α : Type} (v : JVal α) : 1 ≤ v.size := by
  cases v <;> simp [JVal.size]

theorem skipWS_headOk (l rest : List Char) (h : HeadOk l) :
    ∃ c t, l ++ rest = c :: t ∧ skipWS (l ++ rest) = c :: t ∧ c ≠ ']' ∧ c ≠ '\x7d' := by
  obtain ⟨c, t, hl, hs, h1, h2⟩ := h
  refine ⟨c, t ++ rest, by simp [hl], ?_, h1, h2⟩
  simp [hl, skipWS, hs]

theorem numStop_encodeTail {α : Type} (fmt : α → List Char) (tl : JList α) (rest : List Char) :
    NumStop (encodeTail fmt tl ++ rest) := by
  intro c r h
  cases tl with
  | nil =>
    simp only [encodeTail, List.singleton_append, List.cons.injEq] at h
    rw [← h.1]; decide
  | cons v tl2 =>
    simp only [encodeTail, List.cons_append, List.cons.injEq] at h
    rw [← h.1]; decide

theorem numStop_encodeMembersTail {α : Type} (fmt : α → List Char) (tl : JMembers α)
    (rest : List Char) : NumStop (encodeMembersTail fmt tl ++ rest) := by
  intro c r h
  cases tl with
  | nil =>
    simp only [encodeMembersTail, List.singleton_append, List.cons.injEq] at h
    rw [← h.1]; decide
  | cons k v tl2 =>
    simp only [encodeMembersTail, List.cons_append, List.cons.injEq] at h
    rw [← h.1]; decide

theorem parse_encode_aux {α : Type} (fmt : α → List Char)
    (hfmt : ∀ n, isValidNumber (fmt n) = true) : ∀ fuel : Nat,
    (∀ (v : JVal α) (rest : List Char), NumStop rest → v.size ≤ fuel →
      parseValue fuel (encode fmt v ++ rest) = some (v.mapNum fmt, rest)) ∧
    (∀ (v : JVal α) (tl : JList α) (rest : List Char), (JList.cons v tl).size ≤ fuel →
      parseElems fuel (encode fmt v ++ (encodeTail fmt tl ++ rest))
        = some (JList.cons (v.mapNum fmt) (tl.mapNum fmt), rest)) ∧
    (∀ (k : List Char) (v : JVal α) (tl : JMembers α) (rest : List Char),
      (JMembers.cons k v tl).size ≤ fuel →
      parseMembers fuel (quoteString k ++ ':' :: (encode fmt v ++ (encodeMembersTail fmt tl ++ rest)))
        = some (JMembers.cons k (v.mapNum fmt) (tl.mapNum fmt), rest)) := by
  intro fuel
  induction fuel with
  | zero =>
    refine ⟨?_, ?_, ?_⟩
    · intro v rest _ h
      have := JVal.size_pos v
      omega
    · intro v tl rest h
      simp [JList.size] at h
    · intro k v tl rest h
      simp [JMembers.size] at h
  | succ f ih =>
    obtain ⟨ihv, ihl, ihm⟩ := ih
    refine ⟨?_, ?_, ?_⟩
    · intro v rest hrest hsize
      obtain ⟨l1, l2, l3, l4, l5, l6⟩ := parseValue_leaf fmt hfmt f rest hrest
      cases v with
      | null => simpa [JVal.mapNum] using l1
      | bool b => simpa [JVal.mapNum] using l2 b
      | num n => simpa [JVal.mapNum] using l3 n
      | str s => simpa [JVal.mapNum] using l4 s
      | arr xs =>
        cases xs with
        | nil => simpa [JVal.mapNum, JList.mapNum] using l5
        | cons v tl =>
          have hsz : (JList.cons v tl).size ≤ f := by
            simp [JVal.size] at hsize; omega
          have hl := ihl v tl rest hsz
          obtain ⟨c, t, hct, hskip, hc1, _⟩ :=
            skipWS_headOk (encode fmt v) (encodeTail fmt tl ++ rest) (encode_head fmt hfmt v)
          simp only [encode, List.cons_append, List.append_assoc]
          rw [parseValue]
          simp only [hskip, hc1, if_false]
          rw [← hct, hl]
          simp [JVal.mapNum, JList.mapNum]
      | obj ms =>
        cases ms with
        | nil => simpa [JVal.mapNum, JMembers.mapNum] using l6
        | cons k v tl =>
          have hsz : (JMembers.cons k v tl).size ≤ f := by
            simp [JVal.size] at hsize; omega
          have hl := ihm k v tl rest hsz
          simp only [encode, List.cons_append, List.append_assoc]
          rw [parseValue]
          have hq : skipWS (quoteString k ++ ':' :: (encode fmt v ++ (encodeMembersTail fmt tl ++ rest)))
              = '"' :: (escapeString k ++ '"' :: ':' :: (encode fmt v ++ (encodeMembersTail fmt tl ++ rest))) := by
            simp [quoteString, skipWS, isJSONSpace]
          have hq2 : quoteString k ++ ':' :: (encode fmt v ++ (encodeMembersTail fmt tl ++ rest))
              = '"' :: (escapeString k ++ '"' :: ':' :: (encode fmt v ++ (encodeMembersTail fmt tl ++ rest))) := by
            simp [quoteString]
          simp only [List.cons_append] at hq
          rw [hq2] at hl
          simp only [hq, hl]
          simp [JVal.mapNum, JMembers.mapNum]
    · intro v tl rest hsize
      have hv := ihv v (encodeTail fmt tl ++ rest) (numStop_encodeTail fmt tl rest)
        (by simp [JList.size] at hsize; omega)
      rw [parseElems]
      simp only [hv]
      cases tl with
      | nil => simp [encodeTail, skipWS, isJSONSpace, JList.mapNum]
      | cons v2 tl2 =>
        have hsz : (JList.cons v2 tl2).size ≤ f := by
          simp [JList.size] at hsize ⊢; omega
        have hl := ihl v2 tl2 rest hsz
        obtain ⟨c, t, hct, hskip, _, _⟩ :=
          skipWS_headOk (encode fmt v2) (encodeTail fmt tl2 ++ rest) (encode_head fmt hfmt v2)
        simp only [encodeTail, List.cons_append, List.append_assoc]
        rw [skipWS_cons ',' _ (by decide)]
        simp only [if_true, hskip]
        rw [← hct, hl]
        simp [JList.mapNum]
    · intro k v tl rest hsize
      have hv := ihv v (encodeMembersTail fmt tl ++ rest) (numStop_encodeMembersTail fmt tl rest)
        (by simp [JMembers.size] at hsize; omega)
      obtain ⟨c, t, hct, hskip, _, _⟩ :=
        skipWS_headOk (encode fmt v) (encodeMembersTail fmt tl ++ rest) (encode_head fmt hfmt v)
      have hkey := parseStr_escapeString k
        ((escapeString k ++ '"' :: ':' :: (encode fmt v ++ (encodeMembersTail fmt tl ++ rest))).length + 1)
        (':' :: (encode fmt v ++ (encodeMembersTail fmt tl ++ rest)))
        (by have := escapeString_length k; simp; omega)
      simp only [quoteString, List.cons_append, List.append_assoc, List.singleton_append,
        List.nil_append]
      rw [parseMembers]
      simp only [if_true, hkey]
      rw [skipWS_cons ':' _ (by decide)]
      simp only [if_true, hskip]
      rw [← hct, hv]
      cases tl with
      | nil => simp [encodeMembersTail, skipWS, isJSONSpace, JMembers.mapNum]
      | cons k2 v2 tl2 =>
        have hsz : (JMembers.cons k2 v2 tl2).size ≤ f := by
          simp [JMembers.size] at hsize ⊢; omega
        have hl := ihm k2 v2 tl2 rest hsz
        simp only [encodeMembersTail, List.cons_append, List.append_assoc]
        rw [skipWS_cons ',' _ (by decide)]
        simp only [if_true]
        have hq : skipWS (quoteString k2 ++ ':' :: (encode fmt v2 ++ (encodeMembersTail fmt tl2 ++ rest)))
            = quoteString k2 ++ ':' :: (encode fmt v2 ++ (encodeMembersTail fmt tl2 ++ rest)) := by
          simp [quoteString, skipWS, isJSONSpace]
        rw [hq, hl]
        simp [JMembers.mapNum]

theorem quoteString_length (k : List Char) : 2 ≤ (quoteString k).length := by
  simp [quoteString]

mutual
theorem JVal.size_le_encode {α : Type} (fmt : α → List Char)
    (hfmt : ∀ n, isValidNumber (fmt n) = true) :
    ∀ v : JVal α, v.size ≤ 2 * (encode fmt v).length
  | JVal.null => by simp [JVal.size, encode]
  | JVal.bool true => by simp [JVal.size, encode]
  | JVal.bool false => by simp [JVal.size, encode]
  | JVal.num n => by
    obtain ⟨_, c, t, hct, _⟩ := isValidNumber_shape _ (hfmt n)
    simp only [JVal.size, encode, hct, List.length_cons]
    omega
  | JVal.str s => by
    have := quoteString_length s
    simp only [JVal.size, encode]; omega
  | JVal.arr JList.nil => by simp [JVal.size, JList.size, encode]
  | JVal.arr (JList.cons v tl) => by
    have h1 := JVal.size_le_encode fmt hfmt v
    have h2 := JList.size_le_tail fmt hfmt tl
    simp only [JVal.size, JList.size, encode, List.length_cons, List.length_append]
    omega
  | JVal.obj JMembers.nil => by simp [JVal.size, JMembers.size, encode]
  | JVal.obj (JMembers.cons k v tl) => by
    have h1 := JVal.size_le_encode fmt hfmt v
    have h2 := JMembers.size_le_membersTail fmt hfmt tl
    simp only [JVal.size, JMembers.size, encode, List.length_cons, List.length_append]
    omega
theorem JList.size_le_tail {α : Type} (fmt : α → List Char)
    (hfmt : ∀ n, isValidNumber (fmt n) = true) :
    ∀ tl : JList α, tl.size + 1 ≤ 2 * (encodeTail fmt tl).length
  | JList.nil => by simp [JList.size, encodeTail]
  | JList.cons v tl => by
    have h1 := JVal.size_le_encode fmt hfmt v
    have h2 := JList.size_le_tail fmt hfmt tl
    simp only [JList.size, encodeTail, List.length_cons, List.length_append]
    omega
theorem JMembers.size_le_membersTail {α : Type} (fmt : α → List Char)
    (hfmt : ∀ n, isValidNumber (fmt n) = true) :
    ∀ tl : JMembers α, tl.size + 1 ≤ 2 * (encodeMembersTail fmt tl).length
  | JMembers.nil => by simp [JMembers.size, encodeMembersTail]
  | JMembers.cons k v tl => by
    have h1 := JVal.size_le_encode fmt hfmt v
    have h2 := JMembers.size_le_membersTail fmt hfmt tl
    simp only [JMembers.size, encodeMembersTail, List.length_cons, List.length_append]
    omega
end

/-- Reading back what the encoder wrote gives the value, numbers as written. -/
theorem parseJSON_encode {α : Type} (fmt : α → List Char)
    (hfmt : ∀ n, isValidNumber (fmt n) = true) (v : JVal α) :
    parseJSON (encode fmt v) = some (v.mapNum fmt) := by
  unfold parseJSON
  obtain ⟨c, t, hct, hskip, _, _⟩ := skipWS_headOk (encode fmt v) [] (encode_head fmt hfmt v)
  simp only [List.append_nil] at hct hskip
  have hsz := JVal.size_le_encode fmt hfmt v
  have h := (parse_encode_aux fmt hfmt (2 * (encode fmt v).length + 2)).1 v []
    (by intro c r h; cases h) (by omega)
  simp only [List.append_nil] at h
  rw [hskip, ← hct, h]
  simp [skipWS]

/-! ### Fuel -/

theorem parseStr_mono : ∀ (n : Nat) (cs : List Char) (r : List Char × List Char),
    parseStr n cs = some r → ∀ m, n ≤ m → parseStr m cs = some r := by
  intro n
  induction n with
  | zero => intro cs r h; simp [parseStr] at h
  | succ n ih =>
    intro cs r h m hm
    obtain ⟨m, rfl⟩ : ∃ k, m = k + 1 := ⟨m - 1, by omega⟩
    have hnm : n ≤ m := by omega
    have key : ∀ (x : List Char) (g : List Char × List Char → List Char × List Char),
        (parseStr n x).map g = some r → (parseStr m x).map g = some r := by
      intro x g hx
      cases hp : parseStr n x with
      | none => simp [hp] at hx
      | some q => rw [ih x q hp m hnm]; simpa [hp] using hx
    cases cs with
    | nil => simp [parseStr] at h
    | cons c rest =>
      simp only [parseStr] at h ⊢
      split_ifs at h ⊢ with h1 h2 h3
      · exact h
      · cases rest with
        | nil => simp at h
        | cons e rest1 =>
          simp only at h ⊢
          split_ifs at h ⊢ with h4
          · cases hg : getu4 (c :: e :: rest1) with
            | none => simp [hg] at h
            | some p =>
              obtain ⟨rr, rest2⟩ := p
              simp only [hg] at h ⊢
              split_ifs at h ⊢ with h5
              · cases hg2 : getu4 rest2 with
                | none =>
                  simp only [hg2] at h ⊢
                  exact key _ _ h
                | some p2 =>
                  obtain ⟨rr1, rest3⟩ := p2
                  simp only [hg2] at h ⊢
                  split_ifs at h ⊢ with h6
                  · exact key _ _ h
                  · exact key _ _ h
              · exact key _ _ h
          · cases hs : simpleEscape e with
            | none => simp [hs] at h
            | some ch =>
              simp only [hs] at h ⊢
              exact key _ _ h
      · exact key _ _ h

theorem getu4_length (cs : List Char) (rr : Nat) (rest : List Char)
    (h : getu4 cs = some (rr, rest)) : rest.length + 6 = cs.length := by
  unfold getu4 at h
  split at h
  · split at h
    · simp only [Option.some.injEq, Prod.mk.injEq] at h
      rw [← h.2]; simp
    · simp at h
  · simp at h

theorem parseStr_fuel : ∀ (n : Nat) (cs : List Char) (r : List Char × List Char),
    parseStr n cs = some r →
      r.2.length < cs.length ∧ ∀ m, cs.length - r.2.length ≤ m → parseStr m cs = some r := by
  intro n
  induction n with
  | zero => intro cs r h; simp [parseStr] at h
  | succ n ih =>
    intro cs r h
    have key : ∀ (ch : Char) (x : List Char), x.length + 1 ≤ cs.length →
        (parseStr n x).map (fun p => (ch :: p.1, p.2)) = some r →
        r.2.length < cs.length ∧ ∀ m, cs.length - r.2.length ≤ m + 1 →
          (parseStr m x).map (fun p => (ch :: p.1, p.2)) = some r := by
      intro ch x hx hmap
      cases hp : parseStr n x with
      | none => simp [hp] at hmap
      | some q =>
        obtain ⟨hq1, hq2⟩ := ih x q hp
        simp only [hp, Option.map_some', Option.some.injEq] at hmap
        subst hmap
        refine ⟨by simp only; omega, fun m hm => ?_⟩
        rw [hq2 m (by simp only at hm; omega)]
        rfl
    cases cs with
    | nil => simp [parseStr] at h
    | cons c rest =>
      simp only [parseStr] at h
      split_ifs at h with h1 h2 h3
      · simp only [Option.some.injEq] at h
        subst h
        refine ⟨by simp, fun m hm => ?_⟩
        obtain ⟨m, rfl⟩ : ∃ k, m = k + 1 := ⟨m - 1, by simp at hm; omega⟩
        simp [parseStr, h1]
      · subst h2
        cases rest with
        | nil => simp at h
        | cons e rest1 =>
          simp only at h
          split_ifs at h with h4
          · subst h4
            cases hg : getu4 ('\\' :: 'u' :: rest1) with
            | none => simp [hg] at h
            | some p =>
              obtain ⟨rr, rest2⟩ := p
              have hl2 := getu4_length _ _ _ hg
              simp only [hg] at h
              split_ifs at h with h5
              · cases hg2 : getu4 rest2 with
                | none =>
                  simp only [hg2] at h
                  obtain ⟨hlen, hfu⟩ := key _ rest2 (by omega) h
                  refine ⟨hlen, fun m hm => ?_⟩
                  obtain ⟨m, rfl⟩ : ∃ k, m = k + 1 := ⟨m - 1, by omega⟩
                  simp only [parseStr, h1, hg, h5, hg2, if_true, if_false]
                  simpa using hfu m hm
                | some p2 =>
                  obtain ⟨rr1, rest3⟩ := p2
                  have hl3 := getu4_length _ _ _ hg2
                  simp only [hg2] at h
                  split_ifs at h with h6
                  · obtain ⟨hlen, hfu⟩ := key _ rest3 (by omega) h
                    refine ⟨hlen, fun m hm => ?_⟩
                    obtain ⟨m, rfl⟩ : ∃ k, m = k + 1 := ⟨m - 1, by omega⟩
                    simp only [parseStr, h1, hg, h5, hg2, h6, if_true, if_false]
                    simpa using hfu m hm
                  · obtain ⟨hlen, hfu⟩ := key _ rest2 (by omega) h
                    refine ⟨hlen, fun m hm => ?_⟩
                    obtain ⟨m, rfl⟩ : ∃ k, m = k + 1 := ⟨m - 1, by omega⟩
                    simp only [parseStr, h1, hg, h5, hg2, h6, if_true, if_false]
                    simpa using hfu m hm
              · obtain ⟨hlen, hfu⟩ := key _ rest2 (by omega) h
                refine ⟨hlen, fun m hm => ?_⟩
                obtain ⟨m, rfl⟩ : ∃ k, m = k + 1 := ⟨m - 1, by omega⟩
                simp only [parseStr, h1, hg, h5, if_true, if_false]
                simpa using hfu m hm
          · cases hs : simpleEscape e with
            | none => simp [hs] at h
            | some ch =>
              simp only [hs] at h
              obtain ⟨hlen, hfu⟩ := key _ rest1 (by simp) h
              refine ⟨hlen, fun m hm => ?_⟩
              obtain ⟨m, rfl⟩ : ∃ k, m = k + 1 := ⟨m - 1, by omega⟩
              simp only [parseStr, h1, h4, hs, if_true, if_false]
              simpa using hfu m hm
      · obtain ⟨hlen, hfu⟩ := key _ rest (by simp) h
        refine ⟨hlen, fun m hm => ?_⟩
        obtain ⟨m, rfl⟩ : ∃ k, m = k + 1 := ⟨m - 1, by omega⟩
        simp only [parseStr, h1, h2, h3, if_true, if_false]
        simpa using hfu m hm

theorem skipWS_length (cs : List Char) : (skipWS cs).length ≤ cs.length := by
  induction cs with
  | nil => simp [skipWS]
  | cons c cs ih =>
    simp only [skipWS]
    split_ifs
    · simp; omega
    · simp

theorem takeWhile_dropWhile_length (p : Char → Bool) (cs : List Char) :
    (cs.takeWhile p).length + (cs.dropWhile p).length = cs.length := by
  rw [← List.length_append, List.takeWhile_append_dropWhile]

theorem isValidNumber_ne_nil (tok : List Char) (h : isValidNumber tok = true) : 1 ≤ tok.length := by
  obtain ⟨_, c, t, hct, _⟩ := isValidNumber_shape tok h
  simp [hct]

theorem parseValue_step (n : Nat) (hl : FuelOk parseElems n) (hm : FuelOk parseMembers n) :
    FuelOk parseValue (n + 1) := by
  intro cs r h
  cases cs with
  | nil => simp [parseValue] at h
  | cons c rest =>
    simp only [parseValue] at h
    have hws := skipWS_length rest
    split_ifs at h with h1 h2 h3 h4 h5
    · -- object
      cases hs : skipWS rest with
      | nil => simp [hs] at h
      | cons d rest1 =>
        simp only [hs] at h
        rw [hs] at hws
        simp only [List.length_cons] at hws
        split_ifs at h with h5
        · simp only [Option.some.injEq] at h
          subst h
          refine ⟨by simp; omega, fun m hmm => ?_⟩
          obtain ⟨m, rfl⟩ : ∃ k, m = k + 1 := ⟨m - 1, by simp at hmm; omega⟩
          simp [parseValue, h1, hs, h5]
        · cases hp : parseMembers n (d :: rest1) with
          | none => simp [hp] at h
          | some q =>
            obtain ⟨hq1, hq2⟩ := hm _ q hp
            simp only [hp, Option.map_some', Option.some.injEq] at h
            subst h
            simp only [List.length_cons] at hq1 hq2 ⊢
            refine ⟨by omega, fun m hmm => ?_⟩
            obtain ⟨m, rfl⟩ : ∃ k, m = k + 1 := ⟨m - 1, by omega⟩
            simp only [parseValue, h1, hs, h5, if_true, if_false]
            rw [hq2 m (by omega)]
            rfl
    · -- array
      cases hs : skipWS rest with
      | nil => simp [hs] at h
      | cons d rest1 =>
        simp only [hs] at h
        rw [hs] at hws
        simp only [List.length_cons] at hws
        split_ifs at h with h5
        · simp only [Option.some.injEq] at h
          subst h
          refine ⟨by simp; omega, fun m hmm => ?_⟩
          obtain ⟨m, rfl⟩ : ∃ k, m = k + 1 := ⟨m - 1, by simp at hmm; omega⟩
          simp [parseValue, h1, h2, hs, h5]
        · cases hp : parseElems n (d :: rest1) with
          | none => simp [hp] at h
          | some q =>
            obtain ⟨hq1, hq2⟩ := hl _ q hp
            simp only [hp, Option.map_some', Option.some.injEq] at h
            subst h
            simp only [List.length_cons] at hq1 hq2 ⊢
            refine ⟨by omega, fun m hmm => ?_⟩
            obtain ⟨m, rfl⟩ : ∃ k, m = k + 1 := ⟨m - 1, by omega⟩
            simp only [parseValue, h1, h2, hs, h5, if_true, if_false]
            rw [hq2 m (by omega)]
            rfl
    · -- string
      cases hp : parseStr (rest.length + 1) rest with
      | none => simp [hp] at h
      | some q =>
        obtain ⟨hq1, _⟩ := parseStr_fuel _ _ _ hp
        simp only [hp, Option.map_some', Option.some.injEq] at h
        subst h
        refine ⟨by simp only [List.length_cons]; omega, fun m hmm => ?_⟩
        obtain ⟨m, rfl⟩ : ∃ k, m = k + 1 := ⟨m - 1, by simp only [List.length_cons] at hmm; omega⟩
        simp only [parseValue, h1, h2, h3, if_true, if_false, hp]
        rfl
    · -- number
      simp only [Option.some.injEq] at h
      subst h
      have hlen := takeWhile_dropWhile_length isNumChar (c :: rest)
      have hne := isValidNumber_ne_nil _ h5
      refine ⟨by simp only at hlen ⊢; omega, fun m hmm => ?_⟩
      obtain ⟨m, rfl⟩ : ∃ k, m = k + 1 := ⟨m - 1, by simp only at hlen hmm; omega⟩
      simp only [parseValue, h1, h2, h3, h4, if_true, if_false, h5]
    · -- literal
      split at h
      all_goals first
        | (simp at h; done)
        | (simp only [Option.some.injEq] at h
           subst h
           rename_i heq
           simp only [List.cons.injEq] at heq
           obtain ⟨hc, hrest⟩ := heq
           subst hc; subst hrest
           refine ⟨by simp only [List.length_cons]; omega, fun m hmm => ?_⟩
           obtain ⟨m, rfl⟩ : ∃ k, m = k + 1 :=
             ⟨m - 1, by simp only [List.length_cons] at hmm; omega⟩
           simp [parseValue, isDigit])

theorem parseElems_step (n : Nat) (hv : FuelOk parseValue n) (hl : FuelOk parseElems n) :
    FuelOk parseElems (n + 1) := by
  intro cs r h
  simp only [parseElems] at h
  cases hp : parseValue n cs with
  | none => simp [hp] at h
  | some p =>
    obtain ⟨v, rest⟩ := p
    obtain ⟨hp1, hp2⟩ := hv _ _ hp
    simp only [hp] at h
    have hws := skipWS_length rest
    cases hs : skipWS rest with
    | nil => simp [hs] at h
    | cons d rest1 =>
      simp only [hs] at h
      rw [hs] at hws
      simp only [List.length_cons] at hws hp1 hp2
      have hws1 := skipWS_length rest1
      split_ifs at h with h1 h2
      · cases hq : parseElems n (skipWS rest1) with
        | none => simp [hq] at h
        | some q =>
          obtain ⟨hq1, hq2⟩ := hl _ q hq
          simp only [hq, Option.map_some', Option.some.injEq] at h
          subst h
          simp only at hq1 hq2 ⊢
          refine ⟨by omega, fun m hmm => ?_⟩
          obtain ⟨m, rfl⟩ : ∃ k, m = k + 1 := ⟨m - 1, by omega⟩
          simp only [parseElems]
          rw [hp2 m (by omega)]
          simp only [hs, h1, if_true]
          rw [hq2 m (by omega)]
          rfl
      · simp only [Option.some.injEq] at h
        subst h
        refine ⟨by dsimp only; omega, fun m hmm => ?_⟩
        dsimp only at hmm
        obtain ⟨m, rfl⟩ : ∃ k, m = k + 1 := ⟨m - 1, by omega⟩
        simp only [parseElems]
        rw [hp2 m (by omega)]
        simp [hs, h1, h2]

theorem parseMembers_step (n : Nat) (hv : FuelOk parseValue n) (hm : FuelOk parseMembers n) :
    FuelOk parseMembers (n + 1) := by
  intro cs r h
  cases cs with
  | nil => simp [parseMembers] at h
  | cons q rest =>
    simp only [parseMembers] at h
    split_ifs at h with h0
    cases hk : parseStr (rest.length + 1) rest with
    | none => simp [hk] at h
    | some kp =>
      obtain ⟨k, rest1⟩ := kp
      obtain ⟨hk1, _⟩ := parseStr_fuel _ _ _ hk
      simp only [hk] at h
      have hws1 := skipWS_length rest1
      cases hs1 : skipWS rest1 with
      | nil => simp [hs1] at h
      | cons col rest2 =>
        simp only [hs1] at h
        rw [hs1] at hws1
        split_ifs at h with h1
        have hws2 := skipWS_length rest2
        cases hp : parseValue n (skipWS rest2) with
        | none => simp [hp] at h
        | some p =>
          obtain ⟨v, rest3⟩ := p
          obtain ⟨hp1, hp2⟩ := hv _ _ hp
          simp only [hp] at h
          have hws3 := skipWS_length rest3
          cases hs3 : skipWS rest3 with
          | nil => simp [hs3] at h
          | cons d rest4 =>
            simp only [hs3] at h
            rw [hs3] at hws3
            simp only [List.length_cons] at hws1 hws3 hp1 hp2 hk1
            have hws4 := skipWS_length rest4
            split_ifs at h with h2 h3
            · cases hq : parseMembers n (skipWS rest4) with
              | none => simp [hq] at h
              | some qq =>
                obtain ⟨hq1, hq2⟩ := hm _ qq hq
                simp only [hq, Option.map_some', Option.some.injEq] at h
                subst h
                simp only [List.length_cons] at hq1 hq2 ⊢
                refine ⟨by omega, fun m hmm => ?_⟩
                obtain ⟨m, rfl⟩ : ∃ k, m = k + 1 := ⟨m - 1, by omega⟩
                simp only [parseMembers, h0, if_true, hk, hs1, h1]
                rw [hp2 m (by omega)]
                simp only [hs3, h2, if_true]
                rw [hq2 m (by omega)]
                rfl
            · simp only [Option.some.injEq] at h
              subst h
              simp only [List.length_cons]
              refine ⟨by omega, fun m hmm => ?_⟩
              obtain ⟨m, rfl⟩ : ∃ k, m = k + 1 := ⟨m - 1, by omega⟩
              simp only [parseMembers, h0, if_true, hk, hs1, h1]
              rw [hp2 m (by omega)]
              simp [hs3, h2, h3]

theorem fuelOk_all : ∀ n : Nat,
    FuelOk parseValue n ∧ FuelOk parseElems n ∧ FuelOk parseMembers n := by
  intro n
  induction n with
  | zero =>
    refine ⟨?_, ?_, ?_⟩ <;> intro cs r h
    · simp [parseValue] at h
    · simp [parseElems] at h
    · simp [parseMembers] at h
  | succ n ih =>
    obtain ⟨hv, hl, hm⟩ := ih
    exact ⟨parseValue_step n hl hm, parseElems_step n hv hl, parseMembers_step n hv hm⟩

/-- The fuel of `parseJSON` is never the reason for a failure: a value that
can be parsed from the document with some fuel is parsed with the fuel
`parseJSON` supplies. -/
theorem parseJSON_fuel (s : List Char) (n : Nat) (v : JVal (List Char)) (rest : List Char)
    (h : parseValue n (skipWS s) = some (v, rest)) :
    parseValue (2 * s.length + 2) (skipWS s) = some (v, rest) := by
  obtain ⟨h1, h2⟩ := (fuelOk_all n).1 _ _ h
  apply h2
  right
  have := skipWS_length s
  simp only at h1 ⊢
  omega

/-- The fuel `parseValue` gives to `parseStr` is never the reason for a
failure. -/
theorem parseStr_fuel_enough (n : Nat) (cs : List Char) (r : List Char × List Char)
    (h : parseStr n cs = some r) : parseStr (cs.length + 1) cs = some r :=
  (parseStr_fuel n cs r h).2 _ (by omega)

/-! ### Key order and maps -/

theorem Char.eq_of_toNat_eq (a b : Char) (h : a.toNat = b.toNat) : a = b := by
  rw [← Char.ofNat_toNat a, h, Char.ofNat_toNat]

theorem keyLt_irrefl (a : List Char) : keyLt a a = false := by
  induction a with
  | nil => rfl
  | cons c cs ih => simp [keyLt, ih]

theorem keyLt_asymm : ∀ (a b : List Char), keyLt a b = true → keyLt b a = false
  | [], [] => by simp [keyLt]
  | [], _ :: _ => by simp [keyLt]
  | _ :: _, [] => by simp [keyLt]
  | a :: as, b :: bs => by
    intro h
    simp only [keyLt] at h ⊢
    split_ifs at h with h1 h2
    · have : ¬ b.toNat < a.toNat := by omega
      simp [this, h1]
    · have h3 := keyLt_asymm as bs h
      simp [h1, h2, h3]

theorem keyLt_trans : ∀ (a b c : List Char), keyLt a b = true → keyLt b c = true →
    keyLt a c = true
  | [], [], _ => by simp [keyLt]
  | [], _ :: _, [] => by simp [keyLt]
  | [], _ :: _, _ :: _ => by simp [keyLt]
  | _ :: _, [], _ => by simp [keyLt]
  | _ :: _, _ :: _, [] => by simp [keyLt]
  | a :: as, b :: bs, c :: cs => by
    intro h1 h2
    simp only [keyLt] at h1 h2 ⊢
    split_ifs at h1 with hab hba
    · split_ifs at h2 with hbc hcb
      · have : a.toNat < c.toNat := by omega
        simp [this]
      · have : a.toNat < c.toNat := by omega
        simp [this]
    · split_ifs at h2 with hbc hcb
      · have : a.toNat < c.toNat := by omega
        simp [this]
      · have h3 : ¬ a.toNat < c.toNat := by omega
        have h4 : ¬ c.toNat < a.toNat := by omega
        simp [h3, h4, keyLt_trans as bs cs h1 h2]

theorem keyLt_total : ∀ (a b : List Char), keyLt a b = false → keyLt b a = false → a = b
  | [], [] => by simp
  | [], _ :: _ => by simp [keyLt]
  | _ :: _, [] => by simp [keyLt]
  | a :: as, b :: bs => by
    intro h1 h2
    simp only [keyLt] at h1 h2
    split_ifs at h1 with hab hba
    · simp [hba] at h2
    · simp only [hab, hba, if_false] at h2
      have hc : a = b := Char.eq_of_toNat_eq a b (by omega)
      rw [hc, keyLt_total as bs h1 h2]

/-- Induction over the members of an object, values left alone. -/
@[induction_eliminator]
theorem JMembers.induct {α : Type} {P : JMembers α → Prop} (nil : P JMembers.nil)
    (cons : ∀ k v tl, P tl → P (JMembers.cons k v tl)) : ∀ ms, P ms
  | JMembers.nil => nil
  | JMembers.cons k v tl => cons k v tl (JMembers.induct nil cons tl)

theorem JMembers.keysAbove_iff {α : Type} (k : List Char) (ms : JMembers α) :
    ms.keysAbove k = true ↔ ∀ b ∈ ms.keys, keyLt k b = true := by
  induction ms with
  | nil => simp [JMembers.keysAbove, JMembers.keys]
  | cons k1 v tl ih => simp [JMembers.keysAbove, JMembers.keys, ih]

theorem JMembers.keys_insert {α : Type} (k : List Char) (v : JVal α) (ms : JMembers α) :
    ∀ b ∈ (JMembers.insert k v ms).keys, b = k ∨ b ∈ ms.keys := by
  induction ms with
  | nil => simp [JMembers.insert, JMembers.keys]
  | cons k1 v1 tl ih =>
    intro b hb
    simp only [JMembers.insert] at hb
    split_ifs at hb with h1 h2
    · simp only [JMembers.keys, List.mem_cons] at hb ⊢
      exact hb
    · simp only [JMembers.keys, List.mem_cons] at hb ⊢
      rcases hb with hb | hb
      · exact Or.inr (Or.inl hb)
      · rcases ih b hb with h | h
        · exact Or.inl h
        · exact Or.inr (Or.inr h)
    · simp only [JMembers.keys, List.mem_cons] at hb ⊢
      rcases hb with hb | hb
      · exact Or.inl hb
      · exact Or.inr (Or.inr hb)

theorem JMembers.insert_sorted {α : Type} (k : List Char) (v : JVal α) (ms : JMembers α)
    (hv : v.isMapSorted = true) (hms : ms.isMapSorted = true) :
    (JMembers.insert k v ms).isMapSorted = true := by
  induction ms with
  | nil => simp [JMembers.insert, JMembers.isMapSorted, JMembers.keysAbove, hv]
  | cons k1 v1 tl ih =>
    simp only [JMembers.isMapSorted, Bool.and_eq_true] at hms
    obtain ⟨⟨hv1, hab⟩, htl⟩ := hms
    simp only [JMembers.insert]
    split_ifs with h1 h2
    · have hk : (JMembers.cons k1 v1 tl).keysAbove k = true := by
        rw [JMembers.keysAbove_iff] at hab ⊢
        intro b hb
        simp only [JMembers.keys, List.mem_cons] at hb
        rcases hb with hb | hb
        · rw [hb]; exact h1
        · exact keyLt_trans _ _ _ h1 (hab b hb)
      simp [JMembers.isMapSorted, hv, hk, hv1, hab, htl]
    · have hk : (JMembers.insert k v tl).keysAbove k1 = true := by
        rw [JMembers.keysAbove_iff] at hab ⊢
        intro b hb
        rcases JMembers.keys_insert k v tl b hb with h | h
        · rw [h]; exact h2
        · exact hab b h
      simp [JMembers.isMapSorted, hv1, hk, ih htl]
    · have hkk : k = k1 := keyLt_total k k1 (by simpa using h1) (by simpa using h2)
      subst hkk
      simp [JMembers.isMapSorted, hv, hab, htl]

theorem JMembers.insert_above {α : Type} (k : List Char) (v : JVal α) (acc : JMembers α)
    (h : ∀ a ∈ acc.keys, keyLt a k = true) :
    JMembers.insert k v acc = acc.append (JMembers.cons k v JMembers.nil) := by
  induction acc with
  | nil => simp [JMembers.insert, JMembers.append]
  | cons k1 v1 tl ih =>
    have h1 : keyLt k1 k = true := h k1 (by simp [JMembers.keys])
    have h2 : keyLt k k1 = false := keyLt_asymm _ _ h1
    have h3 := ih (fun a ha => h a (by simp [JMembers.keys, ha]))
    simp [JMembers.insert, h1, h2, h3, JMembers.append]

theorem JMembers.keys_append {α : Type} (a b : JMembers α) :
    (a.append b).keys = a.keys ++ b.keys := by
  induction a with
  | nil => simp [JMembers.append, JMembers.keys]
  | cons k v tl ih => simp [JMembers.append, JMembers.keys, ih]

theorem JMembers.append_nil {α : Type} (a : JMembers α) : a.append JMembers.nil = a := by
  induction a with
  | nil => rfl
  | cons k v tl ih => simp [JMembers.append, ih]

theorem JMembers.append_assoc1 {α : Type} (a : JMembers α) (k : List Char) (v : JVal α)
    (tl : JMembers α) :
    (a.append (JMembers.cons k v JMembers.nil)).append tl = a.append (JMembers.cons k v tl) := by
  induction a with
  | nil => simp [JMembers.append]
  | cons k1 v1 t ih => simp [JMembers.append, ih]

/-! ### The value stored by `json.Unmarshal` -/

mutual
theorem toInterface_sorted (K : FloatCodec) :
    ∀ v : JVal (List Char), (toInterface K v).isMapSorted = true
  | JVal.null => by simp [toInterface, JVal.isMapSorted]
  | JVal.bool b => by simp [toInterface, JVal.isMapSorted]
  | JVal.num lit => by
    simp only [toInterface]
    cases K.parseFloat lit <;> simp [JVal.isMapSorted]
  | JVal.str s => by simp [toInterface, JVal.isMapSorted]
  | JVal.arr xs => by
    simp only [toInterface, JVal.isMapSorted]
    exact toInterfaceList_sorted K xs
  | JVal.obj ms => by
    simp only [toInterface, JVal.isMapSorted]
    exact toInterfaceMembers_sorted K ms JMembers.nil (by simp [JMembers.isMapSorted])
theorem toInterfaceList_sorted (K : FloatCodec) :
    ∀ xs : JList (List Char), (toInterfaceList K xs).isMapSorted = true
  | JList.nil => by simp [toInterfaceList, JList.isMapSorted]
  | JList.cons v tl => by
    simp [toInterfaceList, JList.isMapSorted, toInterface_sorted K v, toInterfaceList_sorted K tl]
theorem toInterfaceMembers_sorted (K : FloatCodec) :
    ∀ (ms : JMembers (List Char)) (acc : JMembers K.F), acc.isMapSorted = true →
      (toInterfaceMembers K acc ms).isMapSorted = true
  | JMembers.nil, acc, h => by simpa [toInterfaceMembers] using h
  | JMembers.cons k v tl, acc, h => by
    simp only [toInterfaceMembers]
    exact toInterfaceMembers_sorted K tl _
      (JMembers.insert_sorted k _ acc (toInterface_sorted K v) h)
end

mutual
theorem toInterface_mapNum (K : FloatCodec) (hK : K.Lawful) :
    ∀ v : JVal K.F, v.isMapSorted = true → toInterface K (v.mapNum K.formatFloat) = v
  | JVal.null, _ => by simp [JVal.mapNum, toInterface]
  | JVal.bool b, _ => by simp [JVal.mapNum, toInterface]
  | JVal.num n, _ => by simp [JVal.mapNum, toInterface, hK.roundTrip]
  | JVal.str s, _ => by simp [JVal.mapNum, toInterface]
  | JVal.arr xs, h => by
    simp only [JVal.isMapSorted] at h
    simp [JVal.mapNum, toInterface, toInterfaceList_mapNum K hK xs h]
  | JVal.obj ms, h => by
    simp only [JVal.isMapSorted] at h
    have := toInterfaceMembers_mapNum K hK ms JMembers.nil h (by simp [JMembers.keys])
    simp only [JVal.mapNum, toInterface, this, JMembers.append]
theorem toInterfaceList_mapNum (K : FloatCodec) (hK : K.Lawful) :
    ∀ xs : JList K.F, xs.isMapSorted = true → toInterfaceList K (xs.mapNum K.formatFloat) = xs
  | JList.nil, _ => by simp [JList.mapNum, toInterfaceList]
  | JList.cons v tl, h => by
    simp only [JList.isMapSorted, Bool.and_eq_true] at h
    simp [JList.mapNum, toInterfaceList, toInterface_mapNum K hK v h.1,
      toInterfaceList_mapNum K hK tl h.2]
theorem toInterfaceMembers_mapNum (K : FloatCodec) (hK : K.Lawful) :
    ∀ (ms : JMembers K.F) (acc : JMembers K.F), ms.isMapSorted = true →
      (∀ a ∈ acc.keys, ∀ b ∈ ms.keys, keyLt a b = true) →
      toInterfaceMembers K acc (ms.mapNum K.formatFloat) = acc.append ms
  | JMembers.nil, acc, _, _ => by
    simp only [JMembers.mapNum, toInterfaceMembers, JMembers.append_nil]
  | JMembers.cons k v tl, acc, h, hacc => by
    simp only [JMembers.isMapSorted, Bool.and_eq_true] at h
    obtain ⟨⟨hv, hab⟩, htl⟩ := h
    rw [JMembers.keysAbove_iff] at hab
    simp only [JMembers.mapNum, toInterfaceMembers]
    rw [toInterface_mapNum K hK v hv,
      JMembers.insert_above k v acc (fun a ha => hacc a ha k (by simp [JMembers.keys]))]
    rw [toInterfaceMembers_mapNum K hK tl _ htl ?_, JMembers.append_assoc1]
    intro a ha b hb
    rw [JMembers.keys_append] at ha
    simp only [JMembers.keys, List.mem_append, List.mem_singleton] at ha
    rcases ha with ha | ha
    · exact hacc a ha b (by simp [JMembers.keys, hb])
    · rw [ha]; exact hab b hb
end

/-! ### The JSON assertion -/

theorem literalCodec_lawful : literalCodec.Lawful where
  valid := fun f => f.property
  roundTrip := fun f => by
    simp [literalCodec, f.property]

/-- On Go values the encoder is injective: equal texts come from equal values. -/
theorem encode_injective (K : FloatCodec) (hK : K.Lawful) (a b : JVal K.F)
    (ha : a.isMapSorted = true) (hb : b.isMapSorted = true)
    (h : encode K.formatFloat a = encode K.formatFloat b) : a = b := by
  have h1 := parseJSON_encode K.formatFloat hK.valid a
  have h2 := parseJSON_encode K.formatFloat hK.valid b
  rw [h, h2] at h1
  have h3 : b.mapNum K.formatFloat = a.mapNum K.formatFloat := by
    simpa using h1
  have h4 := toInterface_mapNum K hK a ha
  rw [← h3, toInterface_mapNum K hK b hb] at h4
  exact h4.symm

theorem responseShouldContainJSON_eq (K : FloatCodec) (api : apiFeature) (responseJSON : String) :
    responseShouldContainJSON K api responseJSON = none ↔
      encode K.formatFloat (jsonUnmarshal K api.responseBody).1
        = encode K.formatFloat (jsonUnmarshal K responseJSON).1 := by
  simp only [responseShouldContainJSON, jsonMarshal, Option.map_none']
  constructor
  · intro h
    by_contra hne
    rw [if_pos] at h
    · cases h
    · intro hs
      exact hne (by injection hs)
  · intro h
    rw [if_neg]
    simp [h]

/-! ### Maps as key-to-value functions -/

theorem JMembers.lookup_insert {α : Type} (k1 k : List Char) (v : JVal α) (ms : JMembers α) :
    (JMembers.insert k1 v ms).lookup k = if k1 = k then some v else ms.lookup k := by
  induction ms with
  | nil => simp [JMembers.insert, JMembers.lookup]
  | cons k2 v2 tl ih =>
    simp only [JMembers.insert]
    by_cases h1 : keyLt k1 k2 = true
    · simp [h1, JMembers.lookup]
    · by_cases h2 : keyLt k2 k1 = true
      · simp only [h1, h2, if_false, if_true, JMembers.lookup, ih]
        by_cases h3 : k2 = k
        · have h4 : k1 ≠ k := by
            intro h; rw [h3, h, keyLt_irrefl] at h2; cases h2
          simp [h3, h4]
        · simp [h3]
      · have hkk : k1 = k2 := keyLt_total k1 k2 (by simpa using h1) (by simpa using h2)
        subst hkk
        simp only [h1, if_false, JMembers.lookup]
        by_cases h3 : k1 = k <;> simp [h3]

theorem toInterfaceMembers_lookup (K : FloatCodec) (k : List Char)
    (ms : JMembers (List Char)) : ∀ acc : JMembers K.F,
    (toInterfaceMembers K acc ms).lookup k =
      match ms.last k with
      | some v => some (toInterface K v)
      | none => acc.lookup k := by
  induction ms with
  | nil => intro acc; simp [toInterfaceMembers, JMembers.last]
  | cons k1 v1 tl ih =>
    intro acc
    simp only [toInterfaceMembers, JMembers.last, ih, JMembers.lookup_insert]
    cases tl.last k with
    | some w => simp
    | none => by_cases h : k1 = k <;> simp [h]

theorem JMembers.lookup_above {α : Type} (k : List Char) (ms : JMembers α)
    (h : ms.keysAbove k = true) : ms.lookup k = none := by
  induction ms with
  | nil => rfl
  | cons k1 v1 tl ih =>
    simp only [JMembers.keysAbove, Bool.and_eq_true] at h
    have hne : k1 ≠ k := by
      intro hk; rw [hk, keyLt_irrefl] at h; cases h.1
    simp [JMembers.lookup, hne, ih h.2]

theorem JMembers.keysAbove_trans {α : Type} (a b : List Char) (ms : JMembers α)
    (hab : keyLt a b = true) (h : ms.keysAbove b = true) : ms.keysAbove a = true := by
  rw [JMembers.keysAbove_iff] at h ⊢
  exact fun c hc => keyLt_trans _ _ _ hab (h c hc)

/-- Two Go maps with the same entries are the same map. -/
theorem JMembers.ext_sorted {α : Type} (a : JMembers α) : ∀ b : JMembers α,
    a.isMapSorted = true → b.isMapSorted = true →
    (∀ k, a.lookup k = b.lookup k) → a = b := by
  induction a with
  | nil =>
    intro b _ _ h
    cases b with
    | nil => rfl
    | cons k v tl => have := h k; simp [JMembers.lookup] at this
  | cons k1 v1 t1 ih =>
    intro b ha hb h
    cases b with
    | nil => have := h k1; simp [JMembers.lookup] at this
    | cons k2 v2 t2 =>
      simp only [JMembers.isMapSorted, Bool.and_eq_true] at ha hb
      obtain ⟨⟨_, ha1⟩, ha2⟩ := ha
      obtain ⟨⟨_, hb1⟩, hb2⟩ := hb
      have hk : k1 = k2 := by
        by_contra hne
        by_cases h12 : keyLt k1 k2 = true
        · have h1 := h k1
          have := JMembers.lookup_above k1 t2 (JMembers.keysAbove_trans _ _ _ h12 hb1)
          simp [JMembers.lookup, Ne.symm hne, this] at h1
        · have h21 : keyLt k2 k1 = true := by
            by_contra h21
            exact hne (keyLt_total k1 k2 (by simpa using h12) (by simpa using h21))
          have h1 := h k2
          have := JMembers.lookup_above k2 t1 (JMembers.keysAbove_trans _ _ _ h21 ha1)
          simp [JMembers.lookup, hne, this] at h1
      subst hk
      have hv : v1 = v2 := by
        have := h k1
        simpa [JMembers.lookup] using this
      subst hv
      have ht : t1 = t2 := by
        apply ih t2 ha2 hb2
        intro k
        by_cases hk : k1 = k
        · subst hk
          rw [JMembers.lookup_above k1 t1 ha1, JMembers.lookup_above k1 t2 hb1]
        · have := h k
          simpa [JMembers.lookup, hk] using this
      rw [ht]

/-- Objects are compared as maps from keys to values, the last member with a
key giving its value. -/
theorem toInterface_obj_eq_iff (K : FloatCodec) (ms1 ms2 : JMembers (List Char)) :
    toInterface K (JVal.obj ms1) = toInterface K (JVal.obj ms2) ↔
      ∀ k, (ms1.last k).map (toInterface K) = (ms2.last k).map (toInterface K) := by
  simp only [toInterface, JVal.obj.injEq]
  constructor
  · intro h k
    have h1 := toInterfaceMembers_lookup K k ms1 JMembers.nil
    have h2 := toInterfaceMembers_lookup K k ms2 JMembers.nil
    rw [h, h2] at h1
    cases e1 : ms1.last k <;> cases e2 : ms2.last k <;>
      simp [e1, e2, JMembers.lookup] at h1 ⊢
    exact h1.symm
  · intro h
    apply JMembers.ext_sorted
    · exact toInterfaceMembers_sorted K ms1 _ (by simp [JMembers.isMapSorted])
    · exact toInterfaceMembers_sorted K ms2 _ (by simp [JMembers.isMapSorted])
    · intro k
      rw [toInterfaceMembers_lookup, toInterfaceMembers_lookup]
      have := h k
      cases e1 : ms1.last k <;> cases e2 : ms2.last k <;>
        simp [e1, e2, JMembers.lookup] at this ⊢
      exact this

/-! ### Tables -/

theorem fillVariablesMap_tableOf (pairs : List (String × String)) :
    ∀ acc : JMembers Empty, acc.isMapSorted = true →
    ∃ m, fillVariablesMap acc (tableOf pairs).Rows = Outcome.ret m ∧
      m.isMapSorted = true ∧
      ∀ k, m.lookup k = match lastValue pairs k with
        | some v => some v
        | none => acc.lookup k := by
  induction pairs with
  | nil =>
    intro acc hacc
    exact ⟨acc, by simp [tableOf, fillVariablesMap], hacc, by simp [lastValue]⟩
  | cons p ps ih =>
    intro acc hacc
    obtain ⟨m, hm, hs, hl⟩ := ih (JMembers.insert p.1.toList (JVal.str p.2.toList) acc)
      (JMembers.insert_sorted _ _ _ (by simp [JVal.isMapSorted]) hacc)
    refine ⟨m, ?_, hs, ?_⟩
    · simpa [tableOf, fillVariablesMap] using hm
    · intro k
      rw [hl k, JMembers.lookup_insert]
      simp only [lastValue, List.reverse_cons, List.find?_append]
      cases hf : List.find? (fun p => decide (p.1.toList = k)) ps.reverse with
      | some q => simp
      | none =>
        by_cases hk : p.1.data = k <;> simp [hk]

/-- Every table whose rows all have exactly two cells is `tableOf` of its
rows read as pairs. -/
theorem tableOf_surjective (t : DataTable) (h : ∀ row ∈ t.Rows, row.Cells.length = 2) :
    ∃ pairs, t = tableOf pairs := by
  obtain ⟨rows⟩ := t
  simp only at h
  induction rows with
  | nil => exact ⟨[], rfl⟩
  | cons row rows ih =>
    obtain ⟨pairs, hp⟩ := ih (fun r hr => h r (List.mem_cons_of_mem _ hr))
    have hrow := h row (List.mem_cons_self _ _)
    obtain ⟨cells⟩ := row
    simp only at hrow
    match cells, hrow with
    | [c0, c1], _ =>
      obtain ⟨v0⟩ := c0
      obtain ⟨v1⟩ := c1
      refine ⟨(v0, v1) :: pairs, ?_⟩
      simp only [tableOf, List.map_cons, DataTable.mk.injEq, List.cons.injEq, true_and] at hp ⊢
      exact hp

/-! ### Rows that are too short -/

theorem addHeaderRows_short_row (rows : List TableRow) :
    ∀ h : Option Header, (∃ row ∈ rows, row.Cells.length < 2) →
      ∃ reason, addHeaderRows h rows = Outcome.panic reason := by
  induction rows with
  | nil => intro h hex; simp at hex
  | cons row rows ih =>
    intro h hex
    obtain ⟨cells⟩ := row
    match cells, hex with
    | [], _ => exact ⟨"index out of range", by simp [addHeaderRows]⟩
    | [_], _ => exact ⟨"index out of range", by simp [addHeaderRows]⟩
    | c0 :: c1 :: more, hex =>
      have hrest : ∃ row ∈ rows, row.Cells.length < 2 := by
        obtain ⟨r, hr, hlen⟩ := hex
        rcases List.mem_cons.mp hr with heq | hmem
        · subst heq
          simp only [List.length_cons] at hlen
          omega
        · exact ⟨r, hmem, hlen⟩
      cases h with
      | none => exact ⟨"assignment to entry in nil map", by simp [addHeaderRows]⟩
      | some m =>
        obtain ⟨reason, hreason⟩ := ih (some (Header.Add m c0.Value c1.Value)) hrest
        exact ⟨reason, by simpa [addHeaderRows] using hreason⟩

theorem fillVariablesMap_short_row (rows : List TableRow) :
    ∀ m : JMembers Empty, (∃ row ∈ rows, row.Cells.length < 2) →
      ∃ reason, fillVariablesMap m rows = Outcome.panic reason := by
  induction rows with
  | nil => intro m hex; simp at hex
  | cons row rows ih =>
    intro m hex
    obtain ⟨cells⟩ := row
    match cells, hex with
    | [], _ => exact ⟨"index out of range", by simp [fillVariablesMap]⟩
    | [_], _ => exact ⟨"index out of range", by simp [fillVariablesMap]⟩
    | c0 :: c1 :: more, hex =>
      have hrest : ∃ row ∈ rows, row.Cells.length < 2 := by
        obtain ⟨r, hr, hlen⟩ := hex
        rcases List.mem_cons.mp hr with heq | hmem
        · subst heq
          simp only [List.length_cons] at hlen
          omega
        · exact ⟨r, hmem, hlen⟩
      obtain ⟨reason, hreason⟩ := ih
        (JMembers.insert c0.Value.toList (JVal.str c1.Value.toList) m) hrest
      exact ⟨reason, by simpa [fillVariablesMap] using hreason⟩

theorem addHeaderRows_returns (rows : List TableRow) :
    ∀ m : Header, (∀ row ∈ rows, 2 ≤ row.Cells.length) →
      ∃ m1, addHeaderRows (some m) rows = Outcome.ret (some m1) := by
  induction rows with
  | nil => intro m _; exact ⟨m, rfl⟩
  | cons row rows ih =>
    intro m hall
    obtain ⟨cells⟩ := row
    have hrow := hall _ (List.mem_cons_self _ _)
    match cells, hrow with
    | c0 :: c1 :: more, _ =>
      obtain ⟨m1, hm1⟩ := ih (Header.Add m c0.Value c1.Value)
        (fun r hr => hall r (List.mem_cons_of_mem _ hr))
      exact ⟨m1, by simpa [addHeaderRows] using hm1⟩

/-- On a table with at least one row whose rows all have two cells or more,
and with the header map in place, `setHeadersWithValues` returns. -/
theorem setHeadersWithValues_returns (api : apiFeature) (m : Header) (row0 : TableRow)
    (rest : List TableRow) (hm : api.requestHeader = some m)
    (hall : ∀ row ∈ row0 :: rest, 2 ≤ row.Cells.length) :
    ∃ r, setHeadersWithValues api { Rows := row0 :: rest } = Outcome.ret r := by
  obtain ⟨m1, h1⟩ := addHeaderRows_returns (row0 :: rest) m hall
  by_cases h2 : row0.Cells.length = 2
  · exact ⟨{ api := { api with requestHeader := some m1 }, err := none, wire := [] },
      by simp [setHeadersWithValues, h2, hm, h1]⟩
  · exact ⟨{ api := api, wire := [],
             err := some ("expected two columns for event table row, got: "
               ++ toString row0.Cells.length) },
      by simp [setHeadersWithValues, h2]⟩

/-! ### Letter case -/

theorem lowerCode_eq_iff (a b : Char) (ha : a.toNat < 128) (hb : b.toNat < 128) (hab : a ≠ b) :
    (lowerCode a = lowerCode b) ↔
      (65 ≤ (if b.toNat < a.toNat then b else a).toNat ∧
        (if b.toNat < a.toNat then b else a).toNat ≤ 90 ∧
        (if b.toNat < a.toNat then a else b).toNat
          = (if b.toNat < a.toNat then b else a).toNat + 32) := by
  have hne : a.toNat ≠ b.toNat := fun h => hab (Char.eq_of_toNat_eq a b h)
  unfold lowerCode
  split_ifs <;> omega

theorem equalFoldRunes_ascii (foldOrbit : Char → Char → Bool) :
    ∀ (as bs : List Char), (∀ c ∈ as, c.toNat < 128) → (∀ c ∈ bs, c.toNat < 128) →
      equalFoldRunes foldOrbit as bs = decide (as.map lowerCode = bs.map lowerCode)
  | [], [], _, _ => by simp [equalFoldRunes]
  | [], _ :: _, _, _ => by simp [equalFoldRunes]
  | _ :: _, [], _, _ => by simp [equalFoldRunes]
  | a :: as, b :: bs, ha, hb => by
    have ha1 : a.toNat < 128 := ha a (by simp)
    have hb1 : b.toNat < 128 := hb b (by simp)
    have ih := equalFoldRunes_ascii foldOrbit as bs
      (fun c hc => ha c (by simp [hc])) (fun c hc => hb c (by simp [hc]))
    simp only [equalFoldRunes]
    by_cases hab : a = b
    · subst hab
      simp [ih]
    · have key := lowerCode_eq_iff a b ha1 hb1 hab
      have hA : 'A'.toNat = 65 := rfl
      have hZ : 'Z'.toNat = 90 := rfl
      have htr : (if b.toNat < a.toNat then a else b).toNat < 128 := by
        split_ifs <;> assumption
      simp only [hab, if_false, htr, if_true, hA, hZ, List.map_cons, List.cons.injEq]
      by_cases hl : lowerCode a = lowerCode b
      · rw [if_pos (key.mp hl), ih]
        simp [hl]
      · rw [if_neg (fun h => hl (key.mpr h))]
        simp [hl]

theorem equalFold_ascii (foldOrbit : Char → Char → Bool) (s t : String)
    (hs : isASCII s = true) (ht : isASCII t = true) :
    equalFold foldOrbit s t = sameIgnoringCase s t := by
  unfold equalFold sameIgnoringCase
  rw [equalFoldRunes_ascii foldOrbit s.toList t.toList
    (by simpa [isASCII] using hs) (by simpa [isASCII] using ht)]
  rw [beq_eq_decide]
  congr

theorem equalFoldRunes_refl (foldOrbit : Char → Char → Bool) :
    ∀ as : List Char, equalFoldRunes foldOrbit as as = true
  | [] => by simp [equalFoldRunes]
  | a :: as => by simp [equalFoldRunes, equalFoldRunes_refl foldOrbit as]

/-! ### What a parser leaves -/

theorem skipWS_suffix (cs : List Char) : skipWS cs <:+ cs := by
  induction cs with
  | nil => simp [skipWS]
  | cons c cs ih =>
    simp only [skipWS]
    split_ifs
    · exact ih.trans (List.suffix_cons c cs)
    · exact List.suffix_refl _

theorem suffix_cons_of (c : Char) (a b : List Char) (h : a <:+ b) : a <:+ c :: b :=
  h.trans (List.suffix_cons c b)

theorem getu4_suffix (cs : List Char) (rr : Nat) (rest : List Char)
    (h : getu4 cs = some (rr, rest)) : rest <:+ cs := by
  unfold getu4 at h
  split at h
  · split at h
    · simp only [Option.some.injEq, Prod.mk.injEq] at h
      rw [← h.2]
      repeat (first | exact List.suffix_refl _ | apply suffix_cons_of)
    · simp at h
  · simp at h

theorem parseStr_suffix : ∀ (n : Nat) (cs : List Char) (r : List Char × List Char),
    parseStr n cs = some r → r.2 <:+ cs := by
  intro n
  induction n with
  | zero => intro cs r h; simp [parseStr] at h
  | succ n ih =>
    intro cs r h
    have key : ∀ (ch : Char) (x : List Char), x <:+ cs →
        (parseStr n x).map (fun p => (ch :: p.1, p.2)) = some r → r.2 <:+ cs := by
      intro ch x hx hmap
      cases hp : parseStr n x with
      | none => simp [hp] at hmap
      | some q =>
        simp only [hp, Option.map_some', Option.some.injEq] at hmap
        subst hmap
        exact (ih x q hp).trans hx
    cases cs with
    | nil => simp [parseStr] at h
    | cons c rest =>
      have hrest : rest <:+ c :: rest := List.suffix_cons c rest
      simp only [parseStr] at h
      split_ifs at h with h1 h2 h3
      · simp only [Option.some.injEq] at h
        subst h
        exact hrest
      · cases rest with
        | nil => simp at h
        | cons e rest1 =>
          have hrest1 : rest1 <:+ c :: e :: rest1 := (List.suffix_cons e rest1).trans hrest
          simp only at h
          split_ifs at h with h4
          · cases hg : getu4 (c :: e :: rest1) with
            | none => simp [hg] at h
            | some p =>
              obtain ⟨rr, rest2⟩ := p
              have hs2 := getu4_suffix _ _ _ hg
              simp only [hg] at h
              split_ifs at h with h5
              · cases hg2 : getu4 rest2 with
                | none =>
                  simp only [hg2] at h
                  exact key _ _ hs2 h
                | some p2 =>
                  obtain ⟨rr1, rest3⟩ := p2
                  have hs3 := (getu4_suffix _ _ _ hg2).trans hs2
                  simp only [hg2] at h
                  split_ifs at h with h6
                  · exact key _ _ hs3 h
                  · exact key _ _ hs2 h
              · exact key _ _ hs2 h
          · cases hs : simpleEscape e with
            | none => simp [hs] at h
            | some ch =>
              simp only [hs] at h
              exact key _ _ hrest1 h
      · exact key _ _ hrest h

theorem suffix_of_skipWS_eq (r : List Char) (d : Char) (r1 : List Char)
    (h : skipWS r = d :: r1) : r1 <:+ r := by
  have := skipWS_suffix r
  rw [h] at this
  exact (List.suffix_cons d r1).trans this

theorem parseValue_suffix_step (n : Nat) (hl : SuffixOk parseElems n)
    (hm : SuffixOk parseMembers n) : SuffixOk parseValue (n + 1) := by
  intro cs r h
  cases cs with
  | nil => simp [parseValue] at h
  | cons c rest =>
    have hrest : rest <:+ c :: rest := List.suffix_cons c rest
    simp only [parseValue] at h
    split_ifs at h with h1 h2 h3 h4 h5
    · cases hs : skipWS rest with
      | nil => simp [hs] at h
      | cons d rest1 =>
        have h1s := suffix_of_skipWS_eq _ _ _ hs
        simp only [hs] at h
        split_ifs at h with h5
        · simp only [Option.some.injEq] at h
          subst h
          exact h1s.trans hrest
        · cases hp : parseMembers n (d :: rest1) with
          | none => simp [hp] at h
          | some q =>
            have hq := hm _ q hp
            simp only [hp, Option.map_some', Option.some.injEq] at h
            subst h
            rw [← hs] at hq
            exact (hq.trans (skipWS_suffix rest)).trans hrest
    · cases hs : skipWS rest with
      | nil => simp [hs] at h
      | cons d rest1 =>
        have h1s := suffix_of_skipWS_eq _ _ _ hs
        simp only [hs] at h
        split_ifs at h with h5
        · simp only [Option.some.injEq] at h
          subst h
          exact h1s.trans hrest
        · cases hp : parseElems n (d :: rest1) with
          | none => simp [hp] at h
          | some q =>
            have hq := hl _ q hp
            simp only [hp, Option.map_some', Option.some.injEq] at h
            subst h
            rw [← hs] at hq
            exact (hq.trans (skipWS_suffix rest)).trans hrest
    · cases hp : parseStr (rest.length + 1) rest with
      | none => simp [hp] at h
      | some q =>
        have hq := parseStr_suffix _ _ _ hp
        simp only [hp, Option.map_some', Option.some.injEq] at h
        subst h
        exact hq.trans hrest
    · simp only [Option.some.injEq] at h
      subst h
      exact List.dropWhile_suffix _
    · split at h
      all_goals first
        | (simp at h; done)
        | (simp only [Option.some.injEq] at h
           subst h
           rename_i heq
           rw [heq]
           repeat (first | exact List.suffix_refl _ | apply suffix_cons_of))

theorem parseElems_suffix_step (n : Nat) (hv : SuffixOk parseValue n)
    (hl : SuffixOk parseElems n) : SuffixOk parseElems (n + 1) := by
  intro cs r h
  simp only [parseElems] at h
  cases hp : parseValue n cs with
  | none => simp [hp] at h
  | some p =>
    obtain ⟨v, rest⟩ := p
    have hp1 : rest <:+ cs := hv _ _ hp
    simp only [hp] at h
    cases hs : skipWS rest with
    | nil => simp [hs] at h
    | cons d rest1 =>
      have h1s := (suffix_of_skipWS_eq _ _ _ hs).trans hp1
      simp only [hs] at h
      split_ifs at h with h1 h2
      · cases hq : parseElems n (skipWS rest1) with
        | none => simp [hq] at h
        | some q =>
          have hq1 := hl _ q hq
          simp only [hq, Option.map_some', Option.some.injEq] at h
          subst h
          exact (hq1.trans (skipWS_suffix rest1)).trans h1s
      · simp only [Option.some.injEq] at h
        subst h
        exact h1s

theorem parseMembers_suffix_step (n : Nat) (hv : SuffixOk parseValue n)
    (hm : SuffixOk parseMembers n) : SuffixOk parseMembers (n + 1) := by
  intro cs r h
  cases cs with
  | nil => simp [parseMembers] at h
  | cons q rest =>
    have hrest : rest <:+ q :: rest := List.suffix_cons q rest
    simp only [parseMembers] at h
    split_ifs at h with h0
    cases hk : parseStr (rest.length + 1) rest with
    | none => simp [hk] at h
    | some kp =>
      obtain ⟨k, rest1⟩ := kp
      have hk1 : rest1 <:+ q :: rest := (parseStr_suffix _ _ _ hk).trans hrest
      simp only [hk] at h
      cases hs1 : skipWS rest1 with
      | nil => simp [hs1] at h
      | cons col rest2 =>
        have h2s := (suffix_of_skipWS_eq _ _ _ hs1).trans hk1
        simp only [hs1] at h
        split_ifs at h with h1
        cases hp : parseValue n (skipWS rest2) with
        | none => simp [hp] at h
        | some p =>
          obtain ⟨v, rest3⟩ := p
          have h3s : rest3 <:+ q :: rest :=
            ((hv _ _ hp).trans (skipWS_suffix rest2)).trans h2s
          simp only [hp] at h
          cases hs3 : skipWS rest3 with
          | nil => simp [hs3] at h
          | cons d rest4 =>
            have h4s := (suffix_of_skipWS_eq _ _ _ hs3).trans h3s
            simp only [hs3] at h
            split_ifs at h with h2 h3
            · cases hq : parseMembers n (skipWS rest4) with
              | none => simp [hq] at h
              | some qq =>
                have hq1 := hm _ qq hq
                simp only [hq, Option.map_some', Option.some.injEq] at h
                subst h
                exact (hq1.trans (skipWS_suffix rest4)).trans h4s
            · simp only [Option.some.injEq] at h
              subst h
              exact h4s

theorem suffixOk_all : ∀ n : Nat,
    SuffixOk parseValue n ∧ SuffixOk parseElems n ∧ SuffixOk parseMembers n := by
  intro n
  induction n with
  | zero =>
    refine ⟨?_, ?_, ?_⟩ <;> intro cs r h
    · simp [parseValue] at h
    · simp [parseElems] at h
    · simp [parseMembers] at h
  | succ n ih =>
    obtain ⟨hv, hl, hm⟩ := ih
    exact ⟨parseValue_suffix_step n hl hm, parseElems_suffix_step n hv hl,
      parseMembers_suffix_step n hv hm⟩

/-! ### The scan of `gjson.Get` -/

theorem arrayIndex_inRange (seg : List Char) (h : indexInRange seg = true) :
    arrayIndex seg = if isIndex seg then some (digitsValue seg) else none := by
  unfold arrayIndex
  unfold indexInRange at h
  by_cases hi : isIndex seg = true
  · have hlt : digitsValue seg < 2 ^ 63 := by simpa [hi] using h
    have hmod : digitsValue seg % 2 ^ 64 = digitsValue seg := Nat.mod_eq_of_lt (by omega)
    rw [if_pos hi, if_pos hi, hmod, if_pos hlt]
  · simp [hi]

theorem parseValue_closing (n : Nat) (r : List Char) : parseValue n (']' :: r) = none := by
  cases n with
  | zero => simp [parseValue]
  | succ n => simp [parseValue, isDigit]

theorem agrees_none (numString : List Char → String) (cs : List Char) :
    Agrees numString cs none none := rfl

theorem Agrees.mono (numString : List Char → String) (sub cs : List Char)
    (found : Option GResult) (res : Option (JVal (List Char))) (hsub : sub <:+ cs)
    (h : Agrees numString sub found res) : Agrees numString cs found res := by
  cases res with
  | none => exact h
  | some w =>
    obtain ⟨before, raw, after, hcs, hraw, hp, hf⟩ := h
    obtain ⟨pre, hpre⟩ := hsub
    exact ⟨pre ++ before, raw, after, by rw [← hpre, hcs]; simp, hraw, hp, hf⟩

theorem scanElems_step (numString : List Char → String) (n : Nat)
    (hv : ScanValue numString n) (hl : ScanElems numString n) :
    ScanElems numString (n + 1) := by
  intro cs xs rest h idx more hmore
  simp only [parseElems] at h
  cases hp : parseValue n cs with
  | none => simp [hp] at h
  | some p =>
    obtain ⟨v, r1⟩ := p
    have hr1 : r1 <:+ cs := (suffixOk_all n).1 _ _ hp
    simp only [hp] at h
    simp only [elemsAt, hp]
    cases hs : skipWS r1 with
    | nil => simp [hs] at h
    | cons d r2 =>
      simp only [hs] at h
      split_ifs at h with h1 h2
      · cases hq : parseElems n (skipWS r2) with
        | none => simp [hq] at h
        | some q =>
          obtain ⟨tl, r3⟩ := q
          simp only [hq, Option.map_some', Option.some.injEq, Prod.mk.injEq] at h
          obtain ⟨hx, _⟩ := h
          subst hx
          cases idx with
          | zero => simpa [JList.nth] using hv cs v r1 hp more hmore
          | succ i =>
            simp only [JList.nth, h1, if_true]
            exact Agrees.mono numString _ _ _ _
              (((skipWS_suffix r2).trans (suffix_of_skipWS_eq _ _ _ hs)).trans hr1)
              (hl _ tl r3 hq i more hmore)
      · simp only [Option.some.injEq, Prod.mk.injEq] at h
        obtain ⟨hx, _⟩ := h
        subst hx
        cases idx with
        | zero => simpa [JList.nth] using hv cs v r1 hp more hmore
        | succ i =>
          simp only [JList.nth, h1, if_false]
          exact agrees_none numString _
theorem scanMembers_step (numString : List Char → String) (n : Nat)
    (hv : ScanValue numString n) (hm : ScanMembers numString n) :
    ScanMembers numString (n + 1) := by
  intro cs ms rest h seg more hmore
  cases cs with
  | nil => simp [parseMembers] at h
  | cons q r =>
    simp only [parseMembers] at h
    split_ifs at h with h0
    subst h0
    cases hk : parseStr (r.length + 1) r with
    | none => simp [hk] at h
    | some kp =>
      obtain ⟨k, r1⟩ := kp
      have hr1 : r1 <:+ '"' :: r := suffix_cons_of '"' _ _ (parseStr_suffix _ _ _ hk)
      simp only [hk] at h
      cases hs1 : skipWS r1 with
      | nil => simp [hs1] at h
      | cons col r2 =>
        have hr2 : skipWS r2 <:+ '"' :: r :=
          ((skipWS_suffix r2).trans (suffix_of_skipWS_eq _ _ _ hs1)).trans hr1
        simp only [hs1] at h
        split_ifs at h with h1
        cases hp : parseValue n (skipWS r2) with
        | none => simp [hp] at h
        | some p =>
          obtain ⟨v, r3⟩ := p
          have hr3 : r3 <:+ '"' :: r := ((suffixOk_all n).1 _ _ hp).trans hr2
          simp only [hp] at h
          simp only [membersAt, if_true, hk, hs1, h1, hp]
          have hval : Agrees numString ('"' :: r)
              (if k = seg then getAt numString n more (skipWS r2) else none)
              (if k = seg then resolvePath more v else none) := by
            by_cases hks : k = seg
            · simp only [hks, if_true]
              exact Agrees.mono numString _ _ _ _ hr2 (hv _ v r3 hp more hmore)
            · simp only [hks, if_false]
              exact agrees_none numString _
          cases hs3 : skipWS r3 with
          | nil => simp [hs3] at h
          | cons d r4 =>
            simp only [hs3] at h
            split_ifs at h with h2 h3
            · cases hq : parseMembers n (skipWS r4) with
              | none => simp [hq] at h
              | some qq =>
                obtain ⟨tl, r5⟩ := qq
                simp only [hq, Option.map_some', Option.some.injEq, Prod.mk.injEq] at h
                obtain ⟨hx, _⟩ := h
                subst hx
                simp only [JMembers.firstResolving, h2, if_true]
                revert hval
                generalize (if k = seg then getAt numString n more (skipWS r2) else none) = g
                generalize (if k = seg then resolvePath more v else none) = rv
                intro hval
                have htl := Agrees.mono numString _ ('"' :: r) _ _
                  (((skipWS_suffix r4).trans (suffix_of_skipWS_eq _ _ _ hs3)).trans hr3)
                  (hm _ tl r5 hq seg more hmore)
                cases rv with
                | none =>
                  have hg : g = none := hval
                  subst hg
                  exact htl
                | some w =>
                  obtain ⟨before, raw, after, hcs, hraw, hpv, hf⟩ := hval
                  subst hf
                  exact ⟨before, raw, after, hcs, hraw, hpv, rfl⟩
            · simp only [Option.some.injEq, Prod.mk.injEq] at h
              obtain ⟨hx, _⟩ := h
              subst hx
              simp only [JMembers.firstResolving, h2, if_false]
              revert hval
              generalize (if k = seg then getAt numString n more (skipWS r2) else none) = g
              generalize (if k = seg then resolvePath more v else none) = rv
              intro hval
              have htl := agrees_none numString ('"' :: r)
              cases rv with
              | none =>
                have hg : g = none := hval
                subst hg
                exact htl
              | some w =>
                obtain ⟨before, raw, after, hcs, hraw, hpv, hf⟩ := hval
                subst hf
                exact ⟨before, raw, after, hcs, hraw, hpv, rfl⟩
theorem scanValue_step (numString : List Char → String) (n : Nat)
    (hl : ScanElems numString n) (hm : ScanMembers numString n) :
    ScanValue numString (n + 1) := by
  intro cs v rest h segs hsegs
  cases segs with
  | nil =>
    have hlen := ((fuelOk_all (n + 1)).1 cs (v, rest) h).1
    obtain ⟨pre, hpre⟩ := (suffixOk_all (n + 1)).1 cs (v, rest) h
    simp only at hlen hpre
    simp only [getAt, h, resolvePath]
    have htake : cs.take (cs.length - rest.length) = pre := by
      rw [← hpre]
      simp
    rw [htake]
    refine ⟨[], pre, rest, by simp [hpre], ?_, ⟨n + 1, by rw [hpre]; exact h⟩, rfl⟩
    intro hnil
    rw [hnil] at hpre
    rw [← hpre] at hlen
    simp at hlen
  | cons seg more =>
    have hseg : indexInRange seg = true := by
      simp only [List.all_cons, Bool.and_eq_true] at hsegs
      exact hsegs.1
    have hmore : more.all indexInRange = true := by
      simp only [List.all_cons, Bool.and_eq_true] at hsegs
      exact hsegs.2
    cases cs with
    | nil => simp [parseValue] at h
    | cons c r =>
      simp only [parseValue] at h
      simp only [getAt]
      split_ifs at h with h1 h2 h3 h4 h5
      · -- object
        subst h1
        simp only [if_true]
        cases hs : skipWS r with
        | nil => simp [hs] at h
        | cons d r1 =>
          simp only [hs] at h
          split_ifs at h with h6
          · simp only [Option.some.injEq, Prod.mk.injEq] at h
            obtain ⟨hx, _⟩ := h
            subst hx
            subst h6
            simp only [resolvePath, JMembers.firstResolving]
            cases n with
            | zero => simp only [membersAt]; exact agrees_none numString _
            | succ k =>
              simp only [membersAt]
              rw [if_neg (by decide)]
              exact agrees_none numString _
          · cases hp : parseMembers n (d :: r1) with
            | none => simp [hp] at h
            | some q =>
              obtain ⟨ms, r2⟩ := q
              simp only [hp, Option.map_some', Option.some.injEq, Prod.mk.injEq] at h
              obtain ⟨hx, _⟩ := h
              subst hx
              simp only [resolvePath]
              rw [← hs] at hp ⊢
              exact Agrees.mono numString _ _ _ _
                (suffix_cons_of _ _ _ (skipWS_suffix r)) (hm _ ms r2 hp seg more hmore)
      · -- array
        subst h2
        simp only [h1, if_false, if_true]
        rw [arrayIndex_inRange seg hseg]
        cases hs : skipWS r with
        | nil => simp [hs] at h
        | cons d r1 =>
          simp only [hs] at h
          split_ifs at h with h6
          · simp only [Option.some.injEq, Prod.mk.injEq] at h
            obtain ⟨hx, _⟩ := h
            subst hx
            subst h6
            simp only [resolvePath, JList.nth]
            by_cases hi : isIndex seg = true
            · simp only [hi, if_true]
              cases n with
              | zero => simp only [elemsAt]; exact agrees_none numString _
              | succ k =>
                simp only [elemsAt, parseValue_closing]
                exact agrees_none numString _
            · simp only [hi]
              exact agrees_none numString _
          · cases hp : parseElems n (d :: r1) with
            | none => simp [hp] at h
            | some q =>
              obtain ⟨xs, r2⟩ := q
              simp only [hp, Option.map_some', Option.some.injEq, Prod.mk.injEq] at h
              obtain ⟨hx, _⟩ := h
              subst hx
              simp only [resolvePath]
              by_cases hi : isIndex seg = true
              · simp only [hi, if_true]
                rw [← hs] at hp ⊢
                exact Agrees.mono numString _ _ _ _
                  (suffix_cons_of _ _ _ (skipWS_suffix r))
                  (hl _ xs r2 hp (digitsValue seg) more hmore)
              · simp only [hi]
                exact agrees_none numString _
      · -- string
        simp only [h1, h2, if_false]
        cases hp : parseStr (r.length + 1) r with
        | none => simp [hp] at h
        | some q =>
          simp only [hp, Option.map_some', Option.some.injEq, Prod.mk.injEq] at h
          obtain ⟨hx, _⟩ := h
          subst hx
          exact agrees_none numString _
      · -- number
        simp only [h1, h2, if_false]
        simp only [Option.some.injEq, Prod.mk.injEq] at h
        obtain ⟨hx, _⟩ := h
        subst hx
        exact agrees_none numString _
      · -- literal
        simp only [h1, h2, if_false]
        split at h
        all_goals first
          | (simp at h; done)
          | (simp only [Option.some.injEq, Prod.mk.injEq] at h
             obtain ⟨hx, _⟩ := h
             subst hx
             exact agrees_none numString _)

theorem scan_agrees (numString : List Char → String) : ∀ n : Nat,
    ScanValue numString n ∧ ScanElems numString n ∧ ScanMembers numString n := by
  intro n
  induction n with
  | zero =>
    refine ⟨?_, ?_, ?_⟩
    · intro cs v rest h; simp [parseValue] at h
    · intro cs v rest h; simp [parseElems] at h
    · intro cs v rest h; simp [parseMembers] at h
  | succ n ih =>
    obtain ⟨hv, hl, hm⟩ := ih
    exact ⟨scanValue_step numString n hl hm, scanElems_step numString n hv hl,
      scanMembers_step numString n hv hm⟩
theorem splitDots_ne_nil (cs : List Char) : splitDots cs ≠ [] := by
  cases cs with
  | nil => simp [splitDots]
  | cons c cs =>
    simp only [splitDots]
    split
    · simp
    · split_ifs <;> simp

theorem parseValue_container_head (n : Nat) (cs : List Char) (v : JVal (List Char))
    (rest : List Char) (h : parseValue n cs = some (v, rest))
    (hv : (∃ ms, v = JVal.obj ms) ∨ (∃ xs, v = JVal.arr xs)) :
    ∃ c r, cs = c :: r ∧ (c = '\x7b' ∨ c = '[') := by
  cases n with
  | zero => simp [parseValue] at h
  | succ n =>
    cases cs with
    | nil => simp [parseValue] at h
    | cons c r =>
      refine ⟨c, r, rfl, ?_⟩
      simp only [parseValue] at h
      split_ifs at h with h1 h2 h3 h4
      · exact Or.inl h1
      · exact Or.inr h2
      · cases hp : parseStr (r.length + 1) r with
        | none => simp [hp] at h
        | some q =>
          simp only [hp, Option.map_some', Option.some.injEq, Prod.mk.injEq] at h
          obtain ⟨hx, _⟩ := h
          subst hx
          rcases hv with ⟨ms, hms⟩ | ⟨xs, hxs⟩
          · cases hms
          · cases hxs
      · simp only [Option.some.injEq, Prod.mk.injEq] at h
        obtain ⟨hx, _⟩ := h
        subst hx
        rcases hv with ⟨ms, hms⟩ | ⟨xs, hxs⟩
        · cases hms
        · cases hxs
      · split at h
        all_goals first
          | (simp at h; done)
          | (simp only [Option.some.injEq, Prod.mk.injEq] at h
             obtain ⟨hx, _⟩ := h
             subst hx
             rcases hv with ⟨ms, hms⟩ | ⟨xs, hxs⟩
             · cases hms
             · cases hxs)

theorem resolvePath_scalar (seg : List Char) (more : List (List Char)) (v : JVal (List Char))
    (hv : ¬ ((∃ ms, v = JVal.obj ms) ∨ (∃ xs, v = JVal.arr xs))) :
    resolvePath (seg :: more) v = none := by
  cases v with
  | obj ms => exact absurd (Or.inl ⟨ms, rfl⟩) hv
  | arr xs => exact absurd (Or.inr ⟨xs, rfl⟩) hv
  | null => rfl
  | bool b => rfl
  | num l => rfl
  | str s => rfl

/-- On a well-formed document whose first bracket opens its value, the scan of
`gjson.Get` along a plain path agrees with the resolution of the path in the
parsed document. -/
theorem getAt_agrees (numString : List Char → String) (body path : String)
    (doc : JVal (List Char)) (hdoc : parseJSON body.toList = some doc)
    (hd : isPlainDocument body = true) (hp : isPlainPath path = true) :
    Agrees numString body.toList
      (getAt numString (2 * body.toList.length + 2) (splitDots path.toList)
        (fromFirstBracket body.toList))
      (resolvePath (splitDots path.toList) doc) := by
  have hb : bracketFirst body = true := by
    unfold isPlainDocument at hd
    simp only [Bool.and_eq_true] at hd
    exact hd.1
  have hsegs : (splitDots path.toList).all indexInRange = true := by
    unfold isPlainPath at hp
    simp only [Bool.and_eq_true] at hp
    exact hp.2
  cases hpv : parseValue (2 * body.toList.length + 2) (skipWS body.toList) with
  | none =>
    rw [parseJSON, hpv] at hdoc
    cases hdoc
  | some p =>
    obtain ⟨v, rest⟩ := p
    rw [parseJSON, hpv] at hdoc
    simp only at hdoc
    split_ifs at hdoc with hrest
    simp only [Option.some.injEq] at hdoc
    subst hdoc
    have hscan := (scan_agrees numString (2 * body.toList.length + 2)).1 _ _ _ hpv
      (splitDots path.toList) hsegs
    by_cases hnil : fromFirstBracket body.toList = []
    · rw [hnil]
      obtain ⟨seg, more, hsm⟩ : ∃ seg more, splitDots path.toList = seg :: more := by
        cases hsd : splitDots path.toList with
        | nil => exact absurd hsd (splitDots_ne_nil _)
        | cons seg more => exact ⟨seg, more, rfl⟩
      rw [hsm]
      have hscalar : ¬ ((∃ ms, v = JVal.obj ms) ∨ (∃ xs, v = JVal.arr xs)) := by
        intro hv
        obtain ⟨c, r, hcr, hc⟩ := parseValue_container_head _ _ _ _ hpv hv
        have hmem : c ∈ body.toList := by
          have hsub := (skipWS_suffix body.toList).subset
          apply hsub
          rw [hcr]
          simp
        unfold fromFirstBracket at hnil
        rw [List.dropWhile_eq_nil_iff] at hnil
        have := hnil c hmem
        rcases hc with hc | hc <;> subst hc <;> simp at this
      rw [resolvePath_scalar seg more v hscalar]
      show getAt numString (2 * body.toList.length + 1 + 1) (seg :: more) [] = none
      simp only [getAt]
    · have heq : fromFirstBracket body.toList = skipWS body.toList := by
        unfold bracketFirst at hb
        simp only [Bool.or_eq_true, beq_iff_eq] at hb
        rcases hb with hb | hb
        · exact absurd hb hnil
        · exact hb
      rw [heq]
      exact Agrees.mono numString _ _ _ _ (skipWS_suffix _) hscan
theorem resultOf_exists (numString : List Char → String) (w : JVal (List Char))
    (raw : List Char) (hraw : raw ≠ []) : (resultOf numString w raw).Exists = true := by
  have hlen : (String.mk raw).length ≠ 0 := by
    cases raw with
    | nil => exact absurd rfl hraw
    | cons c t => simp [String.length]
  cases w with
  | null => simp [resultOf, GResult.Exists, hraw]
  | bool b => cases b <;> simp [resultOf, GResult.Exists]
  | num l => simp [resultOf, GResult.Exists]
  | str s => simp [resultOf, GResult.Exists]
  | arr xs => simp [resultOf, GResult.Exists]
  | obj ms => simp [resultOf, GResult.Exists]

/-- When the path resolves to nothing, `gjson.Get` returns a `Result` that
does not exist. -/
theorem gjsonGet_unresolved (numString : List Char → String) (body path : String)
    (doc : JVal (List Char)) (hdoc : parseJSON body.toList = some doc)
    (hd : isPlainDocument body = true) (hp : isPlainPath path = true)
    (hr : resolvePath (splitDots path.toList) doc = none) :
    (gjsonGet numString body path).Exists = false := by
  have h := getAt_agrees numString body path doc hdoc hd hp
  rw [hr] at h
  have hnone : getAt numString (2 * body.toList.length + 2) (splitDots path.toList)
      (fromFirstBracket body.toList) = none := h
  simp only [gjsonGet, hdoc, hnone]
  decide

/-- When the path resolves to a value, `gjson.Get` returns a `Result` that
exists and whose string form is the stringified value. -/
theorem gjsonGet_resolved (numString : List Char → String) (body path : String)
    (doc : JVal (List Char)) (hdoc : parseJSON body.toList = some doc)
    (hd : isPlainDocument body = true) (hp : isPlainPath path = true)
    (w : JVal (List Char)) (hr : resolvePath (splitDots path.toList) doc = some w) :
    (gjsonGet numString body path).Exists = true ∧
      Stringified numString body w (gjsonGet numString body path).String := by
  have h := getAt_agrees numString body path doc hdoc hd hp
  rw [hr] at h
  obtain ⟨before, raw, after, hcs, hraw, hpv, hfound⟩ := h
  have hget : gjsonGet numString body path = resultOf numString w raw := by
    simp only [gjsonGet, hdoc, hfound]
  rw [hget]
  refine ⟨resultOf_exists numString w raw hraw, ?_⟩
  cases w with
  | null => rfl
  | bool b => cases b <;> rfl
  | num l => rfl
  | str s => rfl
  | arr xs => exact ⟨before, raw, after, hcs, hraw, hpv, rfl⟩
  | obj ms => exact ⟨before, raw, after, hcs, hraw, hpv, rfl⟩

/-! ## The claims -/

/-- C1 (the code departs from it): `responseShouldContainJSON` is meant to fail
whenever the expected document or the response body does not parse. The code
drops both parse errors, so a document that does not parse is compared as
`null`: when the expected document does not parse and the response body does
not parse either, or is the JSON value `null`, the step succeeds. -/
theorem responseShouldContainJSON_unparsable_accepted (K : FloatCodec) (api : apiFeature)
    (responseJSON : String) (he : parseJSON responseJSON.toList = none)
    (ha : parseJSON api.responseBody.toList = none ∨
      parseJSON api.responseBody.toList = some JVal.null) :
    responseShouldContainJSON K api responseJSON = none := by
  rw [responseShouldContainJSON_eq]
  rcases ha with ha | ha <;> simp only [jsonUnmarshal, he, ha, toInterface]

/-- C1 at the failing input: the expected document and the response body are
both the empty text, which is not JSON, and the step succeeds. -/
theorem responseShouldContainJSON_unparsable_accepted_witness :
    parseJSON "".toList = none ∧
    responseShouldContainJSON literalCodec { testState "" with responseBody := "" } "" = none :=
  ⟨rfl, responseShouldContainJSON_unparsable_accepted literalCodec
    { testState "" with responseBody := "" } "" rfl (Or.inl rfl)⟩

/-- C2: when the expected document and the response body both parse,
`responseShouldContainJSON` succeeds exactly when the two parsed values are
equal as Go values. Two objects are equal exactly when they give the same
value to every key (the last member with a key counts, the order of members
does not); two non-empty arrays are equal exactly when their first elements
are equal and their remaining elements are equal in order, and a non-empty
array never equals the empty one. -/
theorem responseShouldContainJSON_iff_equal (K : FloatCodec) (hK : K.Lawful) (api : apiFeature)
    (responseJSON : String) (expectedDoc actualDoc : JVal (List Char))
    (he : parseJSON responseJSON.toList = some expectedDoc)
    (ha : parseJSON api.responseBody.toList = some actualDoc) :
    (responseShouldContainJSON K api responseJSON = none ↔
      toInterface K expectedDoc = toInterface K actualDoc) ∧
    (∀ ms1 ms2 : JMembers (List Char),
      toInterface K (JVal.obj ms1) = toInterface K (JVal.obj ms2) ↔
        ∀ k, (ms1.last k).map (toInterface K) = (ms2.last k).map (toInterface K)) ∧
    (∀ (v1 v2 : JVal (List Char)) (xs ys : JList (List Char)),
      toInterface K (JVal.arr (JList.cons v1 xs)) = toInterface K (JVal.arr (JList.cons v2 ys)) ↔
        toInterface K v1 = toInterface K v2 ∧
          toInterface K (JVal.arr xs) = toInterface K (JVal.arr ys)) ∧
    (∀ (v : JVal (List Char)) (xs : JList (List Char)),
      toInterface K (JVal.arr (JList.cons v xs)) ≠ toInterface K (JVal.arr JList.nil)) := by
  refine ⟨?_, toInterface_obj_eq_iff K, ?_, ?_⟩
  · rw [responseShouldContainJSON_eq]
    simp only [jsonUnmarshal, he, ha]
    constructor
    · intro h
      exact (encode_injective K hK _ _ (toInterface_sorted K _) (toInterface_sorted K _) h).symm
    · intro h
      rw [h]
  · intro v1 v2 xs ys
    simp [toInterface, toInterfaceList]
  · intro v xs
    simp [toInterface, toInterfaceList]

/-- C2 on the examples of the specification: an object matches the same
object written with other white space and key order, `[1,2]` does not match
`[2,1]` nor `[1,2,3]`, and a different leaf value is a mismatch. -/
theorem responseShouldContainJSON_iff_equal_witness :
    (responseShouldContainJSON literalCodec
        { testState "" with responseBody := "\x7b\"a\":1,\"b\":2\x7d" }
        " \x7b \"b\" : 2,\n \"a\" : 1 \x7d " = none ↔
      toInterface literalCodec
          (JVal.obj (JMembers.cons ['b'] (JVal.num ['2'])
            (JMembers.cons ['a'] (JVal.num ['1']) JMembers.nil))) =
        toInterface literalCodec
          (JVal.obj (JMembers.cons ['a'] (JVal.num ['1'])
            (JMembers.cons ['b'] (JVal.num ['2']) JMembers.nil)))) ∧
    responseShouldContainJSON literalCodec
        { testState "" with responseBody := "\x7b\"a\":1,\"b\":2\x7d" }
        " \x7b \"b\" : 2,\n \"a\" : 1 \x7d " = none ∧
    responseShouldContainJSON literalCodec
        { testState "" with responseBody := "[1,2]" } "[2,1]" =
      some "expected json [2,1], does not match actual: [1,2]" ∧
    responseShouldContainJSON literalCodec
        { testState "" with responseBody := "[1,2]" } "[1,2,3]" =
      some "expected json [1,2,3], does not match actual: [1,2]" ∧
    responseShouldContainJSON literalCodec
        { testState "" with responseBody := "\x7b\"firstName\":\"John\",\"lastName\":\"Dow\"\x7d" }
        "\x7b\"firstName\":\"Ben\",\"lastName\":\"Dow\"\x7d" =
      some ("expected json \x7b\"firstName\":\"Ben\",\"lastName\":\"Dow\"\x7d, does not match "
        ++ "actual: \x7b\"firstName\":\"John\",\"lastName\":\"Dow\"\x7d") :=
  ⟨(responseShouldContainJSON_iff_equal literalCodec literalCodec_lawful
      { testState "" with responseBody := "\x7b\"a\":1,\"b\":2\x7d" }
      " \x7b \"b\" : 2,\n \"a\" : 1 \x7d " _ _ rfl rfl).1,
    by decide, by decide, by decide, by decide⟩

/-- C3: `responseCodeShouldBe` succeeds exactly when the expected code equals
the stored `responseCode`. When it fails the message names the expected and
the actual code, followed by `, response message: ` and the stored body when
the stored code is at least 400, and by nothing otherwise. -/
theorem responseCodeShouldBe_spec (api : apiFeature) (expected : Int) :
    (responseCodeShouldBe api expected = none ↔ expected = api.responseCode) ∧
    responseCodeShouldBe api expected =
      (if expected = api.responseCode then none
       else some ("expected response code to be: " ++ toString expected ++ ", but actual is: "
          ++ toString api.responseCode
          ++ (if api.responseCode ≥ 400 then ", response message: " ++ api.responseBody
              else ""))) := by
  unfold responseCodeShouldBe
  by_cases h : expected = api.responseCode
  · simp [h]
  · by_cases h4 : api.responseCode ≥ 400
    · simp [h, h4, String.append_assoc]
    · simp [h, h4]

/-- C4 (as amended): on a state whose header map exists, `setHeaderWithValue`
returns without error and stores exactly the new value under the canonical
form of the name, replacing what was stored there; the values under every
other key are unchanged. -/
theorem setHeaderWithValue_replaces (api : apiFeature) (h : Header) (name value : String)
    (hh : api.requestHeader = some h) :
    setHeaderWithValue api name value =
      Outcome.ret { api := { api with requestHeader := some (Header.Set h name value) },
                    err := none, wire := [] } ∧
    Header.values (Header.Set h name value) (canonicalMIMEHeaderKey name) = [value] ∧
    ∀ key, key ≠ canonicalMIMEHeaderKey name →
      Header.values (Header.Set h name value) key = Header.values h key := by
  refine ⟨?_, ?_, ?_⟩
  · simp [setHeaderWithValue, hh]
  · exact Header.values_put_same h _ _
  · intro key hne
    exact Header.values_put_other h _ key _ hne

/-- C4 (as amended) on a state that already holds `X-A: old`. -/
theorem setHeaderWithValue_replaces_witness :
    setHeaderWithValue { testState "" with requestHeader := some [("X-A", ["old"])] } "x-a" "new" =
      Outcome.ret { api := { testState "" with requestHeader := some [("X-A", ["new"])] },
                    err := none, wire := [] } ∧
    Header.values (Header.Set [("X-A", ["old"])] "x-a" "new") (canonicalMIMEHeaderKey "x-a")
      = ["new"] ∧
    ∀ key, key ≠ canonicalMIMEHeaderKey "x-a" →
      Header.values (Header.Set [("X-A", ["old"])] "x-a" "new") key
        = Header.values [("X-A", ["old"])] key :=
  setHeaderWithValue_replaces { testState "" with requestHeader := some [("X-A", ["old"])] }
    [("X-A", ["old"])] "x-a" "new" rfl

/-- C4 as stated fails: with `old` stored under `X-A`, setting `X-A` to `new`
returns normally and `old` is no longer stored under `X-A`. -/
theorem setHeaderWithValue_keeps_old_counterexample :
    ∃ r, setHeaderWithValue { testState "" with requestHeader := some [("X-A", ["old"])] }
          "X-A" "new" = Outcome.ret r ∧
      "old" ∈ Header.values [("X-A", ["old"])] (canonicalMIMEHeaderKey "X-A") ∧
      "old" ∉ Header.values (r.api.requestHeader.getD []) (canonicalMIMEHeaderKey "X-A") := by
  refine ⟨_, rfl, ?_, ?_⟩ <;> decide

/-- C5: for a table whose first row does not have exactly two cells,
`setHeadersWithValues` and `sendARequestToWithValues` both return the error
`expected two columns for event table row, got: n`, leave the whole state as
it was and hand no request to the transport. -/
theorem malformed_first_row_rejected (N : Net) (api : apiFeature) (method endpoint : String)
    (row0 : TableRow) (rows : List TableRow) (h : row0.Cells.length ≠ 2) :
    setHeadersWithValues api { Rows := row0 :: rows } =
      Outcome.ret { api := api, wire := [],
                    err := some ("expected two columns for event table row, got: "
                      ++ toString row0.Cells.length) } ∧
    sendARequestToWithValues N api method endpoint { Rows := row0 :: rows } =
      Outcome.ret { api := api, wire := [],
                    err := some ("expected two columns for event table row, got: "
                      ++ toString row0.Cells.length) } := by
  simp [setHeadersWithValues, sendARequestToWithValues, h]

/-- C5 on the one-cell table of the repository's tests. -/
theorem malformed_first_row_rejected_witness :
    setHeadersWithValues (testState "http://h") { Rows := [{ Cells := [{ Value := "test" }] }] } =
      Outcome.ret { api := testState "http://h", wire := [],
                    err := some "expected two columns for event table row, got: 1" } ∧
    sendARequestToWithValues okNet (testState "http://h") "POST" "/test"
        { Rows := [{ Cells := [{ Value := "test" }] }] } =
      Outcome.ret { api := testState "http://h", wire := [],
                    err := some "expected two columns for event table row, got: 1" } :=
  malformed_first_row_rejected okNet (testState "http://h") "POST" "/test"
    { Cells := [{ Value := "test" }] } [] (by decide)

/-- C6 (as amended): for a non-empty table of two-cell rows, a base URL that
is not blank and a request line that `http.NewRequest` accepts,
`sendARequestToWithValues` hands exactly one request to the transport. Its URL
is the base URL followed by the endpoint, its headers are the request headers
accumulated so far and nothing else, and its body is the encoding of a map
that parses back to the object with the same entries, the keys in increasing
order, each key carrying the value of the last row with that key. -/
theorem sendARequestToWithValues_request (N : Net) (api : apiFeature) (method endpoint : String)
    (pairs : List (String × String)) (hne : pairs ≠ [])
    (hbase : api.config.BaseURL.toList.all isSpace = false)
    (hacc : N.rejects method (api.config.BaseURL ++ endpoint) = none) :
    ∃ (m : JMembers Empty) (r : StepResult),
      sendARequestToWithValues N api method endpoint (tableOf pairs) = Outcome.ret r ∧
      r.wire = [{ method := if method = "" then "GET" else method,
                  url := api.config.BaseURL ++ endpoint,
                  header := api.requestHeader.getD [],
                  body := some (marshalStringMap m) }] ∧
      parseJSON (marshalStringMap m).toList = some (JVal.obj (m.mapNum fun e => e.elim)) ∧
      m.isMapSorted = true ∧
      ∀ k, m.lookup k = lastValue pairs k := by
  obtain ⟨m, hm, hs, hl⟩ := fillVariablesMap_tableOf pairs JMembers.nil
    (by simp [JMembers.isMapSorted])
  have hb : ¬ (trimSpace api.config.BaseURL).length = 0 := by
    intro hc
    rw [trimSpace_blank, hbase] at hc
    exact Bool.noConfusion hc
  obtain ⟨p, ps, rfl⟩ : ∃ p ps, pairs = p :: ps := by
    cases pairs with
    | nil => exact absurd rfl hne
    | cons p ps => exact ⟨p, ps, rfl⟩
  refine ⟨m, sendHTTPRequest N api method endpoint (some (marshalStringMap m)),
    ?_, ?_, ?_, hs, ?_⟩
  · have hrows : (tableOf (p :: ps)).Rows =
        { Cells := [{ Value := p.1 }, { Value := p.2 }] } :: (tableOf ps).Rows := by
      simp [tableOf]
    rw [sendARequestToWithValues]
    simp only [hrows] at hm ⊢
    simp only [List.length_cons, List.length_nil, ne_eq, not_true_eq_false, if_false, hm]
  · simp only [sendHTTPRequest, hb, if_false, hacc]
    cases hh : api.requestHeader <;> simp only [hh] <;> split <;> simp [newRequest]
  · have := parseJSON_encode (fun e : Empty => e.elim) (fun n => n.elim) (JVal.obj m)
    simpa [marshalStringMap, JVal.mapNum] using this
  · intro k
    rw [hl k]
    cases lastValue (p :: ps) k <;> simp [JMembers.lookup]

/-- C6 (as amended) on the table of the repository's tests, the single row
`(test, value)`: the whole outcome of the step, with the body
`{"test":"value"}` and an empty header map. -/
theorem sendARequestToWithValues_request_witness :
    [("test", "value")] ≠ ([] : List (String × String)) ∧
    (testState "http://localhost:8888").config.BaseURL.toList.all isSpace = false ∧
    (∃ (m : JMembers Empty) (r : StepResult),
      sendARequestToWithValues okNet (testState "http://localhost:8888") "POST" "/test"
          (tableOf [("test", "value")]) = Outcome.ret r ∧
      r.wire = [{ method := if "POST" = "" then "GET" else "POST",
                  url := (testState "http://localhost:8888").config.BaseURL ++ "/test",
                  header := (testState "http://localhost:8888").requestHeader.getD [],
                  body := some (marshalStringMap m) }] ∧
      parseJSON (marshalStringMap m).toList = some (JVal.obj (m.mapNum fun e => e.elim)) ∧
      m.isMapSorted = true ∧
      ∀ k, m.lookup k = lastValue [("test", "value")] k) ∧
    sendARequestToWithValues okNet (testState "http://localhost:8888") "POST" "/test"
        (tableOf [("test", "value")]) =
      Outcome.ret
        { api := { testState "http://localhost:8888" with
                   responseCode := 200, responseBody := "OK" },
          err := none,
          wire := [{ method := "POST", url := "http://localhost:8888/test", header := [],
                     body := some "\x7b\"test\":\"value\"\x7d" }] } :=
  ⟨by decide, by decide,
    sendARequestToWithValues_request okNet (testState "http://localhost:8888") "POST" "/test"
      [("test", "value")] (by decide) (by decide) rfl,
    by decide⟩

/-- C6 as stated fails: with no header set beforehand, the request sent for
the table `(test, value)` has the body `{"test":"value"}` and no
`Content-Type` header at all. -/
theorem sendARequestToWithValues_contentType_counterexample :
    ∃ (r : StepResult) (req : Request),
      (testState "http://localhost:8888").requestHeader = some [] ∧
      sendARequestToWithValues okNet (testState "http://localhost:8888") "POST" "/test"
          (tableOf [("test", "value")]) = Outcome.ret r ∧
      r.wire = [req] ∧
      req.body = some "\x7b\"test\":\"value\"\x7d" ∧
      Header.values req.header (canonicalMIMEHeaderKey "Content-Type") = [] ∧
      Header.Get req.header "Content-Type" ≠ "application/json" :=
  ⟨_, { method := "POST", url := "http://localhost:8888/test", header := [],
        body := some "\x7b\"test\":\"value\"\x7d" },
    rfl, rfl, by decide, by decide, by decide, by decide⟩

/-- C7: `responseHeaderShouldBe` reads the first value stored under the
canonical form of the name, which is empty exactly when nothing is stored
there or the first value is empty. It fails with the not-found message
exactly when that value is empty, with the mismatch message (name, expected
and actual value) exactly when the value is not empty and `strings.EqualFold`
rejects it, and succeeds exactly when it is not empty and `EqualFold` accepts
it. On ASCII text `EqualFold` is equality ignoring letter case, whatever
`unicode.SimpleFold` does elsewhere: the step then succeeds exactly when the
value is not empty and the two texts have the same characters once `A`..`Z`
are put in lower case, and reports the mismatch exactly when they do not; a
non-empty value that is the expected text itself always passes. In the runs
of the repository's tests: `value` passes against `value` and against
`VALUE`, a name that was never stored is not found, a name stored with an
empty value is not found, and `actual_value` against `expected_value` is the
mismatch naming both. -/
theorem responseHeaderShouldBe_spec :
    (∀ (foldOrbit : Char → Char → Bool) (api : apiFeature) (header value : String),
      (Header.Get api.responseHeader header = "" ↔
        Header.values api.responseHeader (canonicalMIMEHeaderKey header) = [] ∨
        (Header.values api.responseHeader (canonicalMIMEHeaderKey header)).head? = some "") ∧
      (responseHeaderShouldBe foldOrbit api header value =
          some ("header : " ++ header ++ " not found in the response") ↔
        Header.Get api.responseHeader header = "") ∧
      (responseHeaderShouldBe foldOrbit api header value =
          some ("expected header (" ++ header ++ ") value: " ++ value
            ++ ", not equal to actual response header value: "
            ++ Header.Get api.responseHeader header) ↔
        Header.Get api.responseHeader header ≠ "" ∧
          equalFold foldOrbit (Header.Get api.responseHeader header) value = false) ∧
      (responseHeaderShouldBe foldOrbit api header value = none ↔
        Header.Get api.responseHeader header ≠ "" ∧
          equalFold foldOrbit (Header.Get api.responseHeader header) value = true) ∧
      (isASCII (Header.Get api.responseHeader header) = true → isASCII value = true →
        (responseHeaderShouldBe foldOrbit api header value = none ↔
          Header.Get api.responseHeader header ≠ "" ∧
            sameIgnoringCase (Header.Get api.responseHeader header) value = true) ∧
        (responseHeaderShouldBe foldOrbit api header value =
            some ("expected header (" ++ header ++ ") value: " ++ value
              ++ ", not equal to actual response header value: "
              ++ Header.Get api.responseHeader header) ↔
          Header.Get api.responseHeader header ≠ "" ∧
            sameIgnoringCase (Header.Get api.responseHeader header) value = false)) ∧
      (Header.Get api.responseHeader header ≠ "" →
        Header.Get api.responseHeader header = value →
        responseHeaderShouldBe foldOrbit api header value = none)) ∧
    (∀ foldOrbit : Char → Char → Bool,
      equalFold foldOrbit "Content-Type" "content-type" = true ∧
      equalFold foldOrbit "application/json" "APPLICATION/JSON" = true ∧
      equalFold foldOrbit "value" "value1" = false ∧
      equalFold foldOrbit "gzip" "zip" = false ∧
      equalFold foldOrbit "a" "b" = false ∧
      equalFold foldOrbit "@" "\x60" = false ∧
      equalFold foldOrbit "[" "\x7b" = false) ∧
    responseHeaderShouldBe asciiFold
      { testState "" with responseHeader := Header.Add [] "expected_header" "value" }
      "expected_header" "value" = none ∧
    responseHeaderShouldBe asciiFold
      { testState "" with responseHeader := Header.Add [] "expected_header" "value" }
      "expected_header" "VALUE" = none ∧
    responseHeaderShouldBe asciiFold
      { testState "" with responseHeader := Header.Add [] "actual_header" "value" }
      "expected_header" "value" =
        some "header : expected_header not found in the response" ∧
    responseHeaderShouldBe asciiFold
      { testState "" with responseHeader := Header.Add [] "expected_header" "" }
      "expected_header" "" =
        some "header : expected_header not found in the response" ∧
    responseHeaderShouldBe asciiFold
      { testState "" with responseHeader := Header.Add [] "expected_header" "actual_value" }
      "expected_header" "expected_value" =
        some ("expected header (expected_header) value: expected_value, "
          ++ "not equal to actual response header value: actual_value") := by
  refine ⟨?_, ?_, by decide, by decide, by decide, by decide, by decide⟩
  · intro foldOrbit api header value
    have hne : ("expected header (" ++ header ++ ") value: " ++ value
            ++ ", not equal to actual response header value: "
            ++ Header.Get api.responseHeader header) ≠
        ("header : " ++ header ++ " not found in the response") := by
      simp only [String.append_assoc]
      exact append_ne_of_head _ _ 'e' 'h' _ _ (by decide) ⟨_, rfl⟩ ⟨_, rfl⟩
    have hnotfound : responseHeaderShouldBe foldOrbit api header value =
          some ("header : " ++ header ++ " not found in the response") ↔
        Header.Get api.responseHeader header = "" := by
      unfold responseHeaderShouldBe
      by_cases h1 : Header.Get api.responseHeader header = ""
      · simp [h1]
      · cases h2 : equalFold foldOrbit (Header.Get api.responseHeader header) value
        · simp [h1, h2]
          exact hne
        · simp [h1, h2]
    have hmismatch : responseHeaderShouldBe foldOrbit api header value =
          some ("expected header (" ++ header ++ ") value: " ++ value
            ++ ", not equal to actual response header value: "
            ++ Header.Get api.responseHeader header) ↔
        Header.Get api.responseHeader header ≠ "" ∧
          equalFold foldOrbit (Header.Get api.responseHeader header) value = false := by
      unfold responseHeaderShouldBe
      by_cases h1 : Header.Get api.responseHeader header = ""
      · simp [h1]
        intro h
        exact absurd h.symm (by simpa [h1] using hne)
      · cases h2 : equalFold foldOrbit (Header.Get api.responseHeader header) value
        · simp [h1, h2]
        · simp [h1, h2]
    have hok : responseHeaderShouldBe foldOrbit api header value = none ↔
        Header.Get api.responseHeader header ≠ "" ∧
          equalFold foldOrbit (Header.Get api.responseHeader header) value = true := by
      unfold responseHeaderShouldBe
      by_cases h1 : Header.Get api.responseHeader header = ""
      · simp [h1]
      · cases h2 : equalFold foldOrbit (Header.Get api.responseHeader header) value
        · simp [h1, h2]
        · simp [h1, h2]
    refine ⟨Header.Get_eq_empty _ _, hnotfound, hmismatch, hok, ?_, ?_⟩
    · intro ha hv
      rw [← equalFold_ascii foldOrbit _ _ ha hv]
      exact ⟨hok, hmismatch⟩
    · intro hnz heq
      refine hok.mpr ⟨hnz, ?_⟩
      rw [heq]
      exact equalFoldRunes_refl foldOrbit _
  · intro foldOrbit
    refine ⟨?_, ?_, ?_, ?_, ?_, ?_, ?_⟩ <;>
      simp [equalFold, equalFoldRunes]

/-- C8: `responseBodyPathShouldBe` against `gjson.Get`, for a well-formed JSON
body in the scope of the model of `gjson.Get` and a plain dot-separated path. The
step fails with the path-not-found message exactly when the path resolves to
nothing in the parsed body (a segment selects the member of an object by key,
or the element of an array by index). When the path resolves to a value, the
actual text is that value stringified (a string without its quotes, a number
as `Result.String()` formats it, `true`, `false`, the empty text for null, an
object or array as its own text in the body); the step succeeds exactly when
`strings.EqualFold` accepts the actual and the expected text, and otherwise
fails with the mismatch message naming the expected value, the actual text
and the path. On ASCII text that comparison is equality ignoring letter case.
Whatever `gjson.Get` returns, the three outcomes are decided by `Exists()`
and `EqualFold` on `String()`. On the body
`{"name":{"firstName":"John","lastName":"Dow"}}`: `name.firstName` with `John`
succeeds, and so does `JOHN`; `name.middleName` is not found; `name.firstName`
with `Ben` is a mismatch that reports `Ben` and `John`. Further runs cover a
key in another letter case, array indexes, a number, a boolean, null, an
object as its text in the body, a repeated key and a body that is a string;
the resolution itself is shown on a body with an array. -/
theorem responseBodyPathShouldBe_spec :
    (∀ (numString : List Char → String) (foldOrbit : Char → Char → Bool) (api : apiFeature)
        (jsonPath value : String) (doc : JVal (List Char)),
      parseJSON api.responseBody.toList = some doc →
      isPlainDocument api.responseBody = true →
      isPlainPath jsonPath = true →
      (responseBodyPathShouldBe (gjsonGet numString) foldOrbit api jsonPath value =
          some ("response body path : " ++ jsonPath ++ " not found in the response") ↔
        resolvePath (splitDots jsonPath.toList) doc = none) ∧
      (∀ w, resolvePath (splitDots jsonPath.toList) doc = some w →
        ∃ actual, Stringified numString api.responseBody w actual ∧
          (responseBodyPathShouldBe (gjsonGet numString) foldOrbit api jsonPath value = none ↔
            equalFold foldOrbit actual value = true) ∧
          (responseBodyPathShouldBe (gjsonGet numString) foldOrbit api jsonPath value =
              some ("expected response value : " ++ value
                ++ " not equal to the actual value : " ++ actual
                ++ " for the response body path : " ++ jsonPath) ↔
            equalFold foldOrbit actual value = false) ∧
          (isASCII actual = true → isASCII value = true →
            equalFold foldOrbit actual value = sameIgnoringCase actual value))) ∧
    (∀ (get : String → String → GResult) (foldOrbit : Char → Char → Bool) (api : apiFeature)
        (jsonPath value : String),
      (responseBodyPathShouldBe get foldOrbit api jsonPath value =
          some ("response body path : " ++ jsonPath ++ " not found in the response") ↔
        (get api.responseBody jsonPath).Exists = false) ∧
      (responseBodyPathShouldBe get foldOrbit api jsonPath value = none ↔
        (get api.responseBody jsonPath).Exists = true ∧
          equalFold foldOrbit (get api.responseBody jsonPath).String value = true) ∧
      (responseBodyPathShouldBe get foldOrbit api jsonPath value =
          some ("expected response value : " ++ value ++ " not equal to the actual value : "
            ++ (get api.responseBody jsonPath).String ++ " for the response body path : "
            ++ jsonPath) ↔
        (get api.responseBody jsonPath).Exists = true ∧
          equalFold foldOrbit (get api.responseBody jsonPath).String value = false)) ∧
    (∀ (foldOrbit : Char → Char → Bool),
      equalFold foldOrbit "John" "JOHN" = true ∧ equalFold foldOrbit "John" "john" = true ∧
      equalFold foldOrbit "John" "Ben" = false ∧ equalFold foldOrbit "John" "Johnny" = false ∧
      equalFold foldOrbit "John" "Jo[n" = false) ∧
    (∃ doc : JVal (List Char),
      parseJSON "\x7b\"items\":[\x7b\"id\":10\x7d, \x7b\"id\":20\x7d],\"ok\":true\x7d".toList
        = some doc ∧
      resolvePath (splitDots "items.1.id".toList) doc = some (JVal.num "20".toList) ∧
      resolvePath (splitDots "items.0".toList) doc =
        some (JVal.obj (JMembers.cons "id".toList (JVal.num "10".toList) JMembers.nil)) ∧
      resolvePath (splitDots "ok".toList) doc = some (JVal.bool true) ∧
      resolvePath (splitDots "items.2.id".toList) doc = none ∧
      resolvePath (splitDots "items.id".toList) doc = none ∧
      resolvePath (splitDots "ok.then".toList) doc = none) ∧
    responseBodyPathShouldBe (gjsonGet decimalNumString) asciiFold
      { testState "" with
        responseBody := "\x7b\"name\":\x7b\"firstName\":\"John\",\"lastName\":\"Dow\"\x7d\x7d" }
      "name.firstName" "John" = none ∧
    responseBodyPathShouldBe (gjsonGet decimalNumString) asciiFold
      { testState "" with
        responseBody := "\x7b\"name\":\x7b\"firstName\":\"John\",\"lastName\":\"Dow\"\x7d\x7d" }
      "name.firstName" "JOHN" = none ∧
    responseBodyPathShouldBe (gjsonGet decimalNumString) asciiFold
      { testState "" with
        responseBody := "\x7b\"name\":\x7b\"firstName\":\"John\",\"lastName\":\"Dow\"\x7d\x7d" }
      "name.middleName" "John" =
        some "response body path : name.middleName not found in the response" ∧
    responseBodyPathShouldBe (gjsonGet decimalNumString) asciiFold
      { testState "" with
        responseBody := "\x7b\"name\":\x7b\"firstName\":\"John\",\"lastName\":\"Dow\"\x7d\x7d" }
      "name.firstName" "Ben" =
        some ("expected response value : Ben not equal to the actual value : John"
          ++ " for the response body path : name.firstName") ∧
    responseBodyPathShouldBe (gjsonGet decimalNumString) asciiFold
      { testState "" with
        responseBody := "\x7b\"name\":\x7b\"firstName\":\"John\",\"lastName\":\"Dow\"\x7d\x7d" }
      "name.firstname" "John" =
        some "response body path : name.firstname not found in the response" ∧
    responseBodyPathShouldBe (gjsonGet decimalNumString) asciiFold
      { testState "" with
        responseBody := "\x7b\"items\":[\x7b\"id\":10\x7d, \x7b\"id\":20\x7d],\"ok\":true\x7d" }
      "items.1.id" "20" = none ∧
    responseBodyPathShouldBe (gjsonGet decimalNumString) asciiFold
      { testState "" with
        responseBody := "\x7b\"items\":[\x7b\"id\":10\x7d, \x7b\"id\":20\x7d],\"ok\":true\x7d" }
      "items.0.id" "20" =
        some ("expected response value : 20 not equal to the actual value : 10"
          ++ " for the response body path : items.0.id") ∧
    responseBodyPathShouldBe (gjsonGet decimalNumString) asciiFold
      { testState "" with
        responseBody := "\x7b\"items\":[\x7b\"id\":10\x7d, \x7b\"id\":20\x7d],\"ok\":true\x7d" }
      "items.2.id" "20" =
        some "response body path : items.2.id not found in the response" ∧
    responseBodyPathShouldBe (gjsonGet decimalNumString) asciiFold
      { testState "" with
        responseBody := "\x7b\"items\":[\x7b\"id\":10\x7d, \x7b\"id\":20\x7d],\"ok\":true\x7d" }
      "ok" "TRUE" = none ∧
    responseBodyPathShouldBe (gjsonGet decimalNumString) asciiFold
      { testState "" with
        responseBody := "\x7b\"items\":[\x7b\"id\":10\x7d, \x7b\"id\":20\x7d],\"ok\":true\x7d" }
      "ok.then" "true" =
        some "response body path : ok.then not found in the response" ∧
    responseBodyPathShouldBe (gjsonGet decimalNumString) asciiFold
      { testState "" with responseBody := "\x7b\"price\":1.0,\"note\":null\x7d" }
      "price" "1" = none ∧
    responseBodyPathShouldBe (gjsonGet decimalNumString) asciiFold
      { testState "" with responseBody := "\x7b\"price\":1.0,\"note\":null\x7d" }
      "price" "1.0" =
        some ("expected response value : 1.0 not equal to the actual value : 1"
          ++ " for the response body path : price") ∧
    responseBodyPathShouldBe (gjsonGet decimalNumString) asciiFold
      { testState "" with responseBody := "\x7b\"price\":1.0,\"note\":null\x7d" }
      "note" "" = none ∧
    responseBodyPathShouldBe (gjsonGet decimalNumString) asciiFold
      { testState "" with responseBody := "\x7b\"a\": \x7b\"b\" : [1, 2]\x7d \x7d" }
      "a" "\x7b\"b\" : [1, 2]\x7d" = none ∧
    responseBodyPathShouldBe (gjsonGet decimalNumString) asciiFold
      { testState "" with responseBody := "\x7b\"a\": \x7b\"b\" : [1, 2]\x7d \x7d" }
      "a" "\x7b\"b\":[1,2]\x7d" =
        some ("expected response value : \x7b\"b\":[1,2]\x7d not equal to the actual value : "
          ++ "\x7b\"b\" : [1, 2]\x7d for the response body path : a") ∧
    responseBodyPathShouldBe (gjsonGet decimalNumString) asciiFold
      { testState "" with responseBody := "\x7b\"a\":\x7b\"x\":1\x7d,\"a\":\x7b\"y\":2\x7d\x7d" }
      "a.y" "2" = none ∧
    responseBodyPathShouldBe (gjsonGet decimalNumString) asciiFold
      { testState "" with responseBody := "\"John\"" }
      "name" "John" = some "response body path : name not found in the response" := by
  refine ⟨?_, ?_, ?_, ?_, ?_⟩
  · intro numString foldOrbit api jsonPath value doc hdoc hd hp
    have hne : ∀ actual : String,
        ("expected response value : " ++ value ++ " not equal to the actual value : "
          ++ actual ++ " for the response body path : " ++ jsonPath) ≠
        ("response body path : " ++ jsonPath ++ " not found in the response") := by
      intro actual
      simp only [String.append_assoc]
      exact append_ne_of_head _ _ 'e' 'r' _ _ (by decide) ⟨_, rfl⟩ ⟨_, rfl⟩
    constructor
    · cases hr : resolvePath (splitDots jsonPath.toList) doc with
      | none =>
        have hex := gjsonGet_unresolved numString _ _ doc hdoc hd hp hr
        simp [responseBodyPathShouldBe, hex]
      | some w =>
        obtain ⟨hex, _⟩ := gjsonGet_resolved numString _ _ doc hdoc hd hp w hr
        unfold responseBodyPathShouldBe
        cases h2 : equalFold foldOrbit (gjsonGet numString api.responseBody jsonPath).String value
        · simp [hex, h2]
          exact hne _
        · simp [hex, h2]
    · intro w hr
      obtain ⟨hex, hstr⟩ := gjsonGet_resolved numString _ _ doc hdoc hd hp w hr
      refine ⟨(gjsonGet numString api.responseBody jsonPath).String, hstr, ?_, ?_, ?_⟩
      · unfold responseBodyPathShouldBe
        cases h2 : equalFold foldOrbit (gjsonGet numString api.responseBody jsonPath).String value
        · simp [hex, h2]
        · simp [hex, h2]
      · unfold responseBodyPathShouldBe
        cases h2 : equalFold foldOrbit (gjsonGet numString api.responseBody jsonPath).String value
        · simp [hex, h2]
        · simp [hex, h2]
      · intro ha hv
        exact equalFold_ascii foldOrbit _ _ ha hv
  · intro get foldOrbit api jsonPath value
    have hne : ("expected response value : " ++ value ++ " not equal to the actual value : "
              ++ (get api.responseBody jsonPath).String ++ " for the response body path : "
              ++ jsonPath) ≠
        ("response body path : " ++ jsonPath ++ " not found in the response") := by
      simp only [String.append_assoc]
      exact append_ne_of_head _ _ 'e' 'r' _ _ (by decide) ⟨_, rfl⟩ ⟨_, rfl⟩
    refine ⟨?_, ?_, ?_⟩
    all_goals
      unfold responseBodyPathShouldBe
      cases h1 : (get api.responseBody jsonPath).Exists
      · simp [h1]
        try (intro h; exact absurd h.symm hne)
      · cases h2 : equalFold foldOrbit (get api.responseBody jsonPath).String value
        · simp [h1, h2]
          try exact hne
        · simp [h1, h2]
  · intro foldOrbit
    refine ⟨?_, ?_, ?_, ?_, ?_⟩ <;> simp [equalFold, equalFoldRunes]
  · exact ⟨_, rfl, rfl, rfl, rfl, rfl, rfl, rfl⟩
  · and_intros <;> decide

/-- C9: when the base URL is empty or all white space, `sendHTTPRequest`
returns `base URL not set for endpoint : ` followed by the endpoint, hands no
request to the transport and leaves the state, the response fields included,
as it was. When the base URL is not blank, every request handed to the
transport has the base URL followed by the endpoint as its URL, and when
`http.NewRequest` accepts the request line exactly one request is handed
over, with that URL and the given body. -/
theorem sendHTTPRequest_baseURL (N : Net) (api : apiFeature) (method endpoint : String)
    (body : Option String) :
    (api.config.BaseURL.toList.all isSpace = true →
      sendHTTPRequest N api method endpoint body =
        { api := api, err := some ("base URL not set for endpoint : " ++ endpoint),
          wire := [] }) ∧
    (api.config.BaseURL.toList.all isSpace = false →
      (∀ req ∈ (sendHTTPRequest N api method endpoint body).wire,
          req.url = api.config.BaseURL ++ endpoint) ∧
      (N.rejects method (api.config.BaseURL ++ endpoint) = none →
        ∃ req, (sendHTTPRequest N api method endpoint body).wire = [req] ∧
          req.url = api.config.BaseURL ++ endpoint ∧ req.body = body)) := by
  refine ⟨?_, ?_⟩
  · intro h
    have hb := (trimSpace_blank api.config.BaseURL).mpr h
    simp [sendHTTPRequest, hb]
  · intro h
    have hb : ¬ (trimSpace api.config.BaseURL).length = 0 := by
      intro hc
      rw [trimSpace_blank, h] at hc
      exact Bool.noConfusion hc
    refine ⟨?_, ?_⟩
    · intro req hreq
      simp only [sendHTTPRequest, hb, if_false] at hreq
      cases hrej : N.rejects method (api.config.BaseURL ++ endpoint) with
      | some e => simp [hrej] at hreq
      | none =>
        simp only [hrej] at hreq
        cases hh : api.requestHeader <;> simp only [hh] at hreq <;>
          split at hreq <;> simp at hreq <;> subst hreq <;> simp [newRequest]
    · intro hrej
      simp only [sendHTTPRequest, hb, if_false, hrej]
      cases hh : api.requestHeader <;> simp only [hh] <;>
        split <;> simp [newRequest]

/-- C10 (the code departs from it): after the before-scenario hook no response
state of the previous scenario should remain. The hook resets `responseCode`
to 0 and `responseBody` to empty but keeps `responseHeader` as it was: after
the hook a header of the previous scenario's last response still satisfies
`responseHeaderShouldBe`. -/
theorem beforeScenario_keeps_responseHeader :
    (∀ (cfg : EnvConfig) (api : apiFeature),
      (beforeScenario cfg api).responseCode = 0 ∧
      (beforeScenario cfg api).responseBody = "" ∧
      (beforeScenario cfg api).responseHeader = api.responseHeader) ∧
    responseHeaderShouldBe asciiFold
      (beforeScenario { BaseURL := "http://localhost:8888" }
        { testState "http://localhost:8888" with
          responseCode := 200, responseBody := "done",
          responseHeader := [("X-Token", ["abc"])] })
      "X-Token" "abc" = none := by
  refine ⟨fun cfg api => ⟨rfl, rfl, rfl⟩, ?_⟩
  decide

/-- C11 (the code departs from it): both table steps should end with success
or an error value on every table. On a table with no rows, and on a table
whose first row has two cells while a later row has fewer than two, both
`setHeadersWithValues` and `sendARequestToWithValues` panic instead: the row
access `Rows[0]`, respectively the cell access `Cells[0]` or `Cells[1]`, is out
of range. -/
theorem table_steps_panic (N : Net) (api : apiFeature) (method endpoint : String)
    (table : DataTable)
    (h : table.Rows = [] ∨
      ∃ row0 rest, table.Rows = row0 :: rest ∧ row0.Cells.length = 2 ∧
        ∃ row ∈ rest, row.Cells.length < 2) :
    (∃ reason, setHeadersWithValues api table = Outcome.panic reason) ∧
    (∃ reason, sendARequestToWithValues N api method endpoint table = Outcome.panic reason) := by
  obtain ⟨rows⟩ := table
  simp only at h
  rcases h with h | ⟨row0, rest, h, hlen, hshort⟩
  · subst h
    exact ⟨⟨_, rfl⟩, ⟨_, rfl⟩⟩
  · subst h
    have hex : ∃ row ∈ row0 :: rest, row.Cells.length < 2 := by
      obtain ⟨r, hr, hl⟩ := hshort
      exact ⟨r, List.mem_cons_of_mem _ hr, hl⟩
    obtain ⟨r1, h1⟩ := addHeaderRows_short_row (row0 :: rest) api.requestHeader hex
    obtain ⟨r2, h2⟩ := fillVariablesMap_short_row (row0 :: rest) JMembers.nil hex
    refine ⟨⟨r1, ?_⟩, ⟨r2, ?_⟩⟩
    · simp [setHeadersWithValues, hlen, h1]
    · simp [sendARequestToWithValues, hlen, h2]

/-- C11 at the failing inputs: the table with no rows, and the table with the
rows `(test, value)` and `(only)`, on which the first row has been added to
the headers by the time the second is read. -/
theorem table_steps_panic_witness :
    ((∃ reason, setHeadersWithValues (testState "http://localhost:8888") { Rows := [] }
        = Outcome.panic reason) ∧
      (∃ reason, sendARequestToWithValues okNet (testState "http://localhost:8888") "POST" "/test"
        { Rows := [] } = Outcome.panic reason)) ∧
    ((∃ reason, setHeadersWithValues (testState "http://localhost:8888")
        { Rows := [{ Cells := [{ Value := "test" }, { Value := "value" }] },
                   { Cells := [{ Value := "only" }] }] } = Outcome.panic reason) ∧
      (∃ reason, sendARequestToWithValues okNet (testState "http://localhost:8888") "POST" "/test"
        { Rows := [{ Cells := [{ Value := "test" }, { Value := "value" }] },
                   { Cells := [{ Value := "only" }] }] } = Outcome.panic reason)) ∧
    setHeadersWithValues (testState "http://localhost:8888") { Rows := [] }
      = Outcome.panic "index out of range" ∧
    sendARequestToWithValues okNet (testState "http://localhost:8888") "POST" "/test"
        { Rows := [{ Cells := [{ Value := "test" }, { Value := "value" }] },
                   { Cells := [{ Value := "only" }] }] }
      = Outcome.panic "index out of range" :=
  ⟨table_steps_panic okNet (testState "http://localhost:8888") "POST" "/test" { Rows := [] }
      (Or.inl rfl),
    table_steps_panic okNet (testState "http://localhost:8888") "POST" "/test"
      { Rows := [{ Cells := [{ Value := "test" }, { Value := "value" }] },
                 { Cells := [{ Value := "only" }] }] }
      (Or.inr ⟨_, _, rfl, rfl, { Cells := [{ Value := "only" }] }, by simp, by decide⟩),
    by decide, by decide⟩

end GodogHTTP
